import Mathlib

/-
Verification of the NOVA slab allocator (src/slab.cpp).

The model below is a shallow embedding of `Slab` and `Slab_cache` from
slab.cpp.  A slab's intrusive free list is modelled as a stack (Lean list)
of link-field addresses; the cache's doubly-linked slab list is modelled as
a Lean list whose first element is `head` and whose `next` direction is the
tail of the list (`prev` of a slab is its left neighbour, `next` its right
neighbour).  Machine addresses are natural numbers.  Dereferences of
possibly-null pointers in the C++ code are modelled as explicit guards
returning `none`.
-/

/-- Modelled from the spec: PAGE_SIZE comes from a header that is not under
src/; the spec's scenario fixes the page unit at 4096 bytes. -/
def PAGE_SIZE : Nat := 4096

/-- Modelled from the spec: the platform word size (`sizeof (mword)`), from a
header not under src/; the platform is 64-bit, so 8 bytes. -/
def wordSize : Nat := 8

/-- Modelled from the spec: `sizeof (Slab)`, the slab header size.  The class
definition lives in slab.h which is not under src/; the constructor in
slab.cpp initialises exactly five word-sized members (avail, cache, prev,
next, head), so the header occupies 40 bytes. -/
def slabHeaderSize : Nat := 40

/-- Modelled from the spec: `align_up` from bits.h (not under src/) rounds
its first argument up to the next multiple of the second. -/
def align_up (v a : Nat) : Nat := (v + a - 1) / a * a

/-- The per-cache constants computed by the `Slab_cache` constructor:
`size` (object size rounded up to the word size), `buff` (buffer stride) and
`elem` (buffers per slab). -/
structure Slab_cache where
  size : Nat
  buff : Nat
  elem : Nat
deriving DecidableEq

/-- The `Slab_cache` constructor arithmetic (slab.cpp lines 60-74):
`size = align_up (elem_size, sizeof (mword))`,
`buff = align_up (size + sizeof (mword), elem_align)`,
`elem = (PAGE_SIZE - sizeof (Slab)) / buff`. -/
def mkCache (elem_size elem_align : Nat) : Slab_cache :=
  { size := align_up elem_size wordSize
  , buff := align_up (align_up elem_size wordSize + wordSize) elem_align
  , elem := (PAGE_SIZE - slabHeaderSize) /
            align_up (align_up elem_size wordSize + wordSize) elem_align }

/-- Well-formedness of the cache constants, as guaranteed by the constructor
for any sensible configuration: at least one buffer per slab, a positive
object size, room for the free-list link in each buffer, and all buffers
fitting in the page after the slab header. -/
def Slab_cache.wf (c : Slab_cache) : Prop :=
  0 < c.elem ∧ 0 < c.size ∧ c.size + wordSize ≤ c.buff ∧
  c.elem * c.buff + slabHeaderSize ≤ PAGE_SIZE

instance (c : Slab_cache) : Decidable c.wf := by
  unfold Slab_cache.wf; infer_instance

/-- One slab: its page-aligned base address (the address of the `Slab`
object itself), the free-buffer count `avail`, and the intrusive free list,
modelled as the stack of link-field addresses with the C++ `head` first. -/
structure Slab where
  base : Nat
  avail : Nat
  freeList : List Nat
deriving DecidableEq

/-- Modelled from the spec: `Slab::full()` is declared in slab.h (not under
src/); FULL means no free buffer remains. -/
def Slab.full (s : Slab) : Bool := s.avail == 0

/-- Modelled from the spec: `Slab::empty()` is declared in slab.h (not under
src/); EMPTY means every buffer of the slab is free. -/
def Slab.isEmpty (c : Slab_cache) (s : Slab) : Bool := s.avail == c.elem

/-- The formatting loop of the `Slab` constructor (slab.cpp lines 36-39):
starting from the highest link address, push each link onto the free list
and step down by one buffer stride. -/
def buildFree (buff : Nat) : Nat → Nat → List Nat → List Nat
  | 0, _, acc => acc
  | n + 1, link, acc => buildFree buff n (link - buff) (link :: acc)

/-- The `Slab` constructor (slab.cpp lines 27-40): a fresh slab over the
page at `base` with `avail = elem` and all buffers threaded on the free
list; the first link written sits at `base + PAGE_SIZE - buff + size`. -/
def Slab.mk0 (c : Slab_cache) (base : Nat) : Slab :=
  { base := base
  , avail := c.elem
  , freeList := buildFree c.buff c.elem (base + PAGE_SIZE - c.buff + c.size) [] }

/-- Model of `Slab::alloc` (slab.cpp lines 42-49): pop the head link, return the
buffer address `head - size`.  A null `head` (empty free list) would be a
fault in the C++ code and is modelled as `none`. -/
def Slab.alloc1 (c : Slab_cache) (s : Slab) : Option (Slab × Nat) :=
  match s.freeList with
  | [] => none
  | link :: rest =>
      some ({ s with avail := s.avail - 1, freeList := rest }, link - c.size)

/-- Model of `Slab::free` (slab.cpp lines 51-58): write the old head into the link
field at `ptr + size` and push that link. -/
def Slab.free1 (c : Slab_cache) (s : Slab) (ptr : Nat) : Slab :=
  { s with avail := s.avail + 1, freeList := (ptr + c.size) :: s.freeList }

/-- The canonical set of link-field addresses of the slab based at `base`:
the constructor writes links at `base + PAGE_SIZE + size - i * buff` for
`i = 1, ..., elem`. -/
def slabLinks (c : Slab_cache) (base : Nat) : List Nat :=
  (List.range c.elem).map (fun k => base + PAGE_SIZE + c.size - (k + 1) * c.buff)

/-- Iterate `Slab::alloc` a number of times, keeping only the slab. -/
def allocIter (c : Slab_cache) : Nat → Slab → Option Slab
  | 0, s => some s
  | n + 1, s =>
      match Slab.alloc1 c s with
      | none => none
      | some (s2, _) => allocIter c n s2

/-- Model of `ptr & ~PAGE_MASK` (slab.cpp line 110): mask a pointer down to its
page-aligned base. -/
def pageOf (p : Nat) : Nat := p / PAGE_SIZE * PAGE_SIZE

/-- The state of one `Slab_cache`: the cache constants, the doubly-linked
slab list (C++ `head` is the first element; `prev` = left, `next` = right),
the cursor `curr` (base address of the current slab, or `none`), and the
index of the next page the page provider will hand out.  Modelled from the
spec: the page provider (`new Slab`, backed by the buddy allocator, not
under src/) returns a fresh page-aligned, page-sized block each time and
never receives memory back; the model hands out pages 0, 1, 2, ... -/
structure State where
  cache : Slab_cache
  slabs : List Slab
  curr : Option Nat
  nextPage : Nat
deriving DecidableEq

/-- Locate the slab with base address `b` in the list, returning the slabs
on its `prev` (head) side, the slab itself, and the slabs on its `next`
(tail) side. -/
def findSplit (l : List Slab) (b : Nat) : Option (List Slab × Slab × List Slab) :=
  match l with
  | [] => none
  | s :: rest =>
      if s.base = b then some ([], s, rest)
      else
        match findSplit rest b with
        | none => none
        | some (L, t, R) => some (s :: L, t, R)

/-- Model of `Slab_cache::grow` (slab.cpp lines 76-85): construct a slab over a fresh
page, link it as the new head (the old head, if any, becomes its successor)
and set `curr` to it. -/
def State.grow (st : State) : State :=
  let s := Slab.mk0 st.cache (st.nextPage * PAGE_SIZE)
  { st with slabs := s :: st.slabs, curr := some s.base,
            nextPage := st.nextPage + 1 }

/-- Model of `Slab_cache::alloc` (slab.cpp lines 87-104): grow when `curr` is null,
allocate from the current slab, and when it just became full move the
cursor to its `prev` neighbour (`none` when the current slab is the head).
A failed lookup of `curr` or an allocation from a slab with an empty free
list would be a fault in the C++ code and is modelled as `none`. -/
def State.alloc (st : State) : Option (State × Nat) :=
  let st1 := match st.curr with
             | none => st.grow
             | some _ => st
  match st1.curr with
  | none => none
  | some cb =>
      match findSplit st1.slabs cb with
      | none => none
      | some (L, s, R) =>
          match Slab.alloc1 st1.cache s with
          | none => none
          | some (s2, ret) =>
              let curr2 := if s2.full then (L.getLast?).map Slab.base else some cb
              some ({ st1 with slabs := L ++ s2 :: R, curr := curr2 }, ret)

/-- Model of `Slab_cache::free` (slab.cpp lines 106-163): recover the owning slab by
masking the pointer, release the buffer into it, then reorder.
FULL case: if the `prev` neighbour exists and is full, dequeue the slab and
splice it right after `curr` (between `curr` and `curr->next`, whose
dereference at line 130 requires `curr->next` to be non-null) or, when
`curr` is null, enqueue it as the new head (line 137 dereferences the old
`head`); then `curr := slab`.  EMPTY case: if the `prev` neighbour exists
and is not empty, hand the cursor to `prev` when the slab was current,
dequeue the slab and enqueue it as the new head (line 160 dereferences the
old `head`).  Each dereference of a possibly-null pointer is modelled as a
guard returning `none`. -/
def State.free (st : State) (p : Nat) : Option State :=
  match findSplit st.slabs (pageOf p) with
  | none => none
  | some (L, s, R) =>
      let wasFull := s.full
      let s2 := Slab.free1 st.cache s p
      if wasFull then
        match L.getLast? with
        | some pv =>
            if pv.full then
              match st.curr with
              | some cb =>
                  (match findSplit (L ++ R) cb with
                   | none => none
                   | some (L2, cs, R2) =>
                       match R2 with
                       | [] => none
                       | nx :: R3 =>
                           some { st with slabs := L2 ++ cs :: s2 :: nx :: R3,
                                          curr := some s2.base })
              | none =>
                  match L ++ R with
                  | [] => none
                  | hd :: tl =>
                      some { st with slabs := s2 :: hd :: tl,
                                     curr := some s2.base }
            else some { st with slabs := L ++ s2 :: R, curr := some s2.base }
        | none => some { st with slabs := L ++ s2 :: R, curr := some s2.base }
      else if s2.isEmpty st.cache then
        match L.getLast? with
        | some pv =>
            if pv.isEmpty st.cache then
              some { st with slabs := L ++ s2 :: R }
            else
              let curr2 := if st.curr = some s.base
                           then (L.getLast?).map Slab.base else st.curr
              match L ++ R with
              | [] => none
              | hd :: tl => some { st with slabs := s2 :: hd :: tl, curr := curr2 }
        | none => some { st with slabs := L ++ s2 :: R }
      else some { st with slabs := L ++ s2 :: R }

/-- One client operation on a cache. -/
inductive Op where
  | alloc : Op
  | free : Nat → Op
deriving DecidableEq

/-- One step of a client sequence, threading the list of live (allocated,
not yet released) pointers.  A release is valid only for a live pointer
(no double free, only cache-owned pointers). -/
def step (sl : State × List Nat) (op : Op) : Option (State × List Nat) :=
  match op with
  | Op.alloc =>
      match sl.1.alloc with
      | none => none
      | some (st2, p) => some (st2, p :: sl.2)
  | Op.free p =>
      if p ∈ sl.2 then
        match sl.1.free p with
        | none => none
        | some st2 => some (st2, sl.2.erase p)
      else none

/-- A freshly constructed cache: no slabs, null cursor. -/
def State.init (c : Slab_cache) : State :=
  { cache := c, slabs := [], curr := none, nextPage := 0 }

/-- Run a sequence of operations from a given state and live set. -/
def runAux : State × List Nat → List Op → Option (State × List Nat)
  | sl, [] => some sl
  | sl, op :: rest =>
      match step sl op with
      | none => none
      | some sl2 => runAux sl2 rest

/-- Run a sequence of operations on a fresh cache. -/
def run (c : Slab_cache) (ops : List Op) : Option (State × List Nat) :=
  runAux (State.init c, []) ops

/-- The link-field addresses of the live pointers that belong to the slab
based at `b`. -/
def liveLinksOf (c : Slab_cache) (b : Nat) (live : List Nat) : List Nat :=
  (live.filter (fun p => pageOf p == b)).map (fun p => p + c.size)

/-- All slabs of the list are non-EMPTY. -/
def allNotEmpty (c : Slab_cache) (l : List Slab) : Bool :=
  l.all (fun s => !(Slab.isEmpty c s))

/-- The EMPTY slabs of the list form a contiguous run at the front. -/
def emptiesFirst (c : Slab_cache) : List Slab → Bool
  | [] => true
  | s :: rest =>
      if Slab.isEmpty c s then emptiesFirst c rest else allNotEmpty c rest

/-- The cursor/order invariant the allocator maintains: either the cursor is
null and every slab is full, or the slab list splits as `A ++ s :: B` where
`s` is the (non-full) current slab, every slab on its head side is non-full
and every slab on its tail side is full. -/
def ordered (st : State) : Prop :=
  (st.curr = none ∧ ∀ s ∈ st.slabs, s.full = true) ∨
  (∃ A s B, st.slabs = A ++ s :: B ∧ st.curr = some s.base ∧ s.full = false ∧
    (∀ a ∈ A, a.full = false) ∧ (∀ b ∈ B, b.full = true))

/-- The reachable-state invariant of one slab cache. -/
structure CacheInv (st : State) (live : List Nat) : Prop where
  wf : st.cache.wf
  basesNodup : (st.slabs.map Slab.base).Nodup
  basesPage : ∀ s ∈ st.slabs, ∃ k, k < st.nextPage ∧ s.base = k * PAGE_SIZE
  acc : ∀ s ∈ st.slabs, s.avail = s.freeList.length ∧
        (s.freeList ++ liveLinksOf st.cache s.base live).Perm
          (slabLinks st.cache s.base)
  owned : ∀ p ∈ live, pageOf p ∈ st.slabs.map Slab.base
  liveND : live.Nodup
  ord : ordered st
  seg : emptiesFirst st.cache st.slabs = true

/-- Total objects handed out and not yet returned, as summed by
`print_stats`: `Σ (elem - avail)` over the slabs. -/
def sumOutstanding (st : State) : Nat :=
  (st.slabs.map (fun s => st.cache.elem - s.avail)).sum

/-- Number of allocate calls in a sequence. -/
def countAllocs (ops : List Op) : Nat :=
  (ops.filter (fun o => match o with | Op.alloc => true | Op.free _ => false)).length

/-- Number of release calls in a sequence. -/
def countFrees (ops : List Op) : Nat :=
  (ops.filter (fun o => match o with | Op.alloc => false | Op.free _ => true)).length

/-- A concrete cache used in witnesses and counterexamples: element size
2016, alignment 8, giving stride 2024 and two buffers per slab. -/
def cacheW : Slab_cache := mkCache 2016 8

theorem full_iff (s : Slab) : s.full = true ↔ s.avail = 0 := by
  simp [Slab.full]

theorem full_false_iff (s : Slab) : s.full = false ↔ s.avail ≠ 0 := by
  simp [Slab.full]

theorem slab_isEmpty_iff (c : Slab_cache) (s : Slab) :
    Slab.isEmpty c s = true ↔ s.avail = c.elem := by
  simp [Slab.isEmpty]

theorem slab_isEmpty_false_iff (c : Slab_cache) (s : Slab) :
    Slab.isEmpty c s = false ↔ s.avail ≠ c.elem := by
  simp [Slab.isEmpty]

theorem free1_base (c : Slab_cache) (s : Slab) (p : Nat) :
    (Slab.free1 c s p).base = s.base := rfl

theorem free1_avail (c : Slab_cache) (s : Slab) (p : Nat) :
    (Slab.free1 c s p).avail = s.avail + 1 := rfl

theorem free1_freeList (c : Slab_cache) (s : Slab) (p : Nat) :
    (Slab.free1 c s p).freeList = (p + c.size) :: s.freeList := rfl

theorem free1_not_full (c : Slab_cache) (s : Slab) (p : Nat) :
    (Slab.free1 c s p).full = false := by
  simp [Slab.free1, Slab.full]

theorem buildFree_eq (b : Nat) : ∀ (n link : Nat) (acc : List Nat),
    buildFree b n link acc =
      ((List.range n).map (fun k => link - k * b)).reverse ++ acc := by
  intro n
  induction n with
  | zero => intro link acc; simp [buildFree]
  | succ m ih =>
      intro link acc
      rw [buildFree, ih, List.range_succ_eq_map]
      simp only [List.map_cons, List.map_map, List.reverse_cons]
      rw [List.append_assoc]
      simp only [List.singleton_append, Nat.zero_mul, Nat.sub_zero]
      congr 1
      congr 1
      congr 1
      funext k
      simp only [Function.comp_apply, Nat.succ_eq_add_one, Nat.succ_mul]
      omega

theorem slabLinks_length (c : Slab_cache) (b : Nat) :
    (slabLinks c b).length = c.elem := by
  simp [slabLinks]

theorem mk0_freeList (c : Slab_cache) (hc : c.wf) (b : Nat) :
    (Slab.mk0 c b).freeList = (slabLinks c b).reverse := by
  obtain ⟨he, hs, hb, hp⟩ := hc
  have hbp : c.buff ≤ PAGE_SIZE := by
    have h1 : 1 * c.buff ≤ c.elem * c.buff := Nat.mul_le_mul_right _ he
    omega
  rw [Slab.mk0, buildFree_eq, slabLinks]
  simp only [List.append_nil]
  congr 1
  apply List.map_congr_left
  intro k hk
  have hk' : k < c.elem := List.mem_range.mp hk
  have h2 : (k + 1) * c.buff ≤ c.elem * c.buff := Nat.mul_le_mul_right _ hk'
  have h3 : (k + 1) * c.buff = k * c.buff + c.buff := by rw [Nat.succ_mul]
  omega

theorem slabLinks_mem (c : Slab_cache) (hc : c.wf) (b : Nat) (x : Nat)
    (hx : x ∈ slabLinks c b) :
    ∃ i, 1 ≤ i ∧ i ≤ c.elem ∧ x + i * c.buff = b + PAGE_SIZE + c.size := by
  obtain ⟨he, hs, hb, hp⟩ := hc
  simp only [slabLinks, List.mem_map, List.mem_range] at hx
  obtain ⟨k, hk, rfl⟩ := hx
  refine ⟨k + 1, by omega, by omega, ?_⟩
  have h2 : (k + 1) * c.buff ≤ c.elem * c.buff := Nat.mul_le_mul_right _ hk
  omega

theorem slabLinks_nodup (c : Slab_cache) (hc : c.wf) (b : Nat) :
    (slabLinks c b).Nodup := by
  obtain ⟨he, hs, hb, hp⟩ := hc
  apply List.Nodup.map_on _ (List.nodup_range _)
  intro x hx y hy hxy
  simp only [List.mem_range] at hx hy
  have h2 : (x + 1) * c.buff ≤ c.elem * c.buff := Nat.mul_le_mul_right _ hx
  have h3 : (y + 1) * c.buff ≤ c.elem * c.buff := Nat.mul_le_mul_right _ hy
  have h4 : (x + 1) * c.buff = x * c.buff + c.buff := by rw [Nat.succ_mul]
  have h5 : (y + 1) * c.buff = y * c.buff + c.buff := by rw [Nat.succ_mul]
  have h6 : x * c.buff + c.buff = y * c.buff + c.buff := by omega
  have h7 : x * c.buff = y * c.buff := by omega
  have hbpos : 0 < c.buff := by omega
  exact Nat.eq_of_mul_eq_mul_right hbpos h7

theorem link_sub_add (c : Slab_cache) (hc : c.wf) (b x : Nat)
    (hx : x ∈ slabLinks c b) : x - c.size + c.size = x ∧ b ≤ x - c.size ∧
      x - c.size < b + PAGE_SIZE := by
  obtain ⟨i, hi1, hi2, hi3⟩ := slabLinks_mem c hc b x hx
  obtain ⟨he, hs, hb, hp⟩ := hc
  have h2 : i * c.buff ≤ c.elem * c.buff := Nat.mul_le_mul_right _ hi2
  have h3 : 1 * c.buff ≤ i * c.buff := Nat.mul_le_mul_right _ hi1
  omega

theorem pageOf_base_add (k r : Nat) (hr : r < PAGE_SIZE) :
    pageOf (k * PAGE_SIZE + r) = k * PAGE_SIZE := by
  have hP : 0 < PAGE_SIZE := by norm_num [PAGE_SIZE]
  rw [pageOf, Nat.add_comm, Nat.add_mul_div_right _ _ hP, Nat.div_eq_of_lt hr,
      Nat.zero_add]

theorem pageOf_link (c : Slab_cache) (hc : c.wf) (k x : Nat)
    (hx : x ∈ slabLinks c (k * PAGE_SIZE)) :
    pageOf (x - c.size) = k * PAGE_SIZE := by
  obtain ⟨hadd, hlo, hhi⟩ := link_sub_add c hc (k * PAGE_SIZE) x hx
  have : x - c.size = k * PAGE_SIZE + (x - c.size - k * PAGE_SIZE) := by omega
  rw [this, pageOf_base_add]
  omega

theorem findSplit_eq (l : List Slab) (b : Nat) (L : List Slab) (s : Slab)
    (R : List Slab) (h : findSplit l b = some (L, s, R)) :
    l = L ++ s :: R ∧ s.base = b ∧ ∀ x ∈ L, x.base ≠ b := by
  induction l generalizing L s R with
  | nil => simp [findSplit] at h
  | cons hd tl ih =>
      rw [findSplit] at h
      by_cases hb : hd.base = b
      · simp only [hb, if_true, Option.some.injEq, Prod.mk.injEq] at h
        obtain ⟨rfl, rfl, rfl⟩ := h
        exact ⟨rfl, hb, by simp⟩
      · simp only [hb, if_false] at h
        cases hfs : findSplit tl b with
        | none => rw [hfs] at h; exact absurd h (by simp)
        | some LtR =>
            obtain ⟨L2, t2, R2⟩ := LtR
            rw [hfs] at h
            simp only [Option.some.injEq, Prod.mk.injEq] at h
            obtain ⟨rfl, rfl, rfl⟩ := h
            obtain ⟨e1, e2, e3⟩ := ih L2 t2 R2 hfs
            refine ⟨by rw [e1]; simp, e2, ?_⟩
            intro x hxm
            rcases List.mem_cons.mp hxm with rfl | hxm
            · exact hb
            · exact e3 x hxm

theorem findSplit_app (A : List Slab) (s : Slab) (B : List Slab) (b : Nat)
    (hA : ∀ x ∈ A, x.base ≠ b) (hs : s.base = b) :
    findSplit (A ++ s :: B) b = some (A, s, B) := by
  induction A with
  | nil => simp [findSplit, hs]
  | cons hd tl ih =>
      have hhd : hd.base ≠ b := hA hd (by simp)
      rw [List.cons_append, findSplit]
      simp only [hhd, if_false]
      rw [ih (fun x hx => hA x (by simp [hx]))]

theorem bases_split (l : List Slab)
    (hnd : (l.map Slab.base).Nodup) (A : List Slab) (s : Slab) (B : List Slab)
    (h : l = A ++ s :: B) :
    (∀ x ∈ A, x.base ≠ s.base) ∧ (∀ x ∈ B, x.base ≠ s.base) := by
  subst h
  simp only [List.map_append, List.map_cons] at hnd
  rw [List.nodup_append] at hnd
  obtain ⟨h1, h2, h3⟩ := hnd
  constructor
  · intro x hx heq
    exact h3 (List.mem_map_of_mem _ hx) (by simp [heq])
  · intro x hx heq
    exact (List.nodup_cons.mp h2).1 (by rw [← heq]; exact List.mem_map_of_mem _ hx)

theorem nodup_middle (l : List Slab)
    (hnd : (l.map Slab.base).Nodup) (A : List Slab) (s : Slab) (B : List Slab)
    (A' : List Slab) (s' : Slab) (B' : List Slab)
    (h1 : l = A ++ s :: B) (h2 : l = A' ++ s' :: B') (hb : s.base = s'.base) :
    A = A' ∧ s = s' ∧ B = B' := by
  have e3 := (bases_split l hnd A s B h1).1
  have e3' := (bases_split l hnd A' s' B' h2).1
  have f1 : findSplit l s.base = some (A, s, B) := by
    rw [h1]; exact findSplit_app A s B s.base e3 rfl
  have f2 : findSplit l s.base = some (A', s', B') := by
    rw [h2]
    exact findSplit_app A' s' B' s.base
      (fun x hx => by rw [hb]; exact e3' x hx) hb.symm
  rw [f1] at f2
  simpa using f2

theorem findSplit_mem (l : List Slab) (b : Nat)
    (hb : b ∈ l.map Slab.base) :
    ∃ L s R, findSplit l b = some (L, s, R) := by
  induction l with
  | nil => simp at hb
  | cons hd tl ih =>
      by_cases hh : hd.base = b
      · exact ⟨[], hd, tl, by simp [findSplit, hh]⟩
      · have : b ∈ tl.map Slab.base := by
          rcases List.mem_map.mp hb with ⟨x, hx, hxb⟩
          rcases List.mem_cons.mp hx with rfl | hx
          · exact absurd hxb hh
          · exact List.mem_map.mpr ⟨x, hx, hxb⟩
        obtain ⟨L, s, R, hfs⟩ := ih this
        exact ⟨hd :: L, s, R, by rw [findSplit]; simp only [hh, if_false, hfs]⟩

theorem emptiesFirst_cons (c : Slab_cache) (s : Slab) (l : List Slab) :
    emptiesFirst c (s :: l) =
      if Slab.isEmpty c s then emptiesFirst c l else allNotEmpty c l := rfl

theorem allNot_of_all_full (c : Slab_cache) (hc : c.wf) (l : List Slab)
    (h : ∀ s ∈ l, s.full = true) : allNotEmpty c l = true := by
  obtain ⟨he, h1, h2, h3⟩ := hc
  rw [allNotEmpty, List.all_eq_true]
  intro s hs
  have h0 := (full_iff s).mp (h s hs)
  simp only [Slab.isEmpty, h0, Bool.not_eq_true', beq_eq_false_iff_ne, ne_eq]
  omega

theorem EF_of_allNot (c : Slab_cache) (l : List Slab)
    (h : allNotEmpty c l = true) : emptiesFirst c l = true := by
  cases l with
  | nil => rfl
  | cons s tl =>
      rw [emptiesFirst_cons]
      rw [allNotEmpty, List.all_cons, Bool.and_eq_true] at h
      have hs : Slab.isEmpty c s = false := by simpa using h.1
      rw [hs]
      simp only [if_false, Bool.false_eq_true]
      exact h.2

theorem EF_append_left (c : Slab_cache) (X Y : List Slab)
    (h : emptiesFirst c (X ++ Y) = true) : emptiesFirst c X = true := by
  induction X with
  | nil => rfl
  | cons s tl ih =>
      rw [List.cons_append, emptiesFirst_cons] at h
      rw [emptiesFirst_cons]
      by_cases hs : Slab.isEmpty c s = true
      · rw [hs] at h ⊢
        simp only [if_true] at h ⊢
        exact ih h
      · rw [Bool.not_eq_true] at hs
        rw [hs] at h ⊢
        simp only [Bool.false_eq_true, if_false] at h ⊢
        rw [allNotEmpty, List.all_append, Bool.and_eq_true] at h
        exact h.1

theorem EF_drop_mid (c : Slab_cache) (X : List Slab) (s : Slab) (Y : List Slab)
    (h : emptiesFirst c (X ++ s :: Y) = true) :
    emptiesFirst c (X ++ Y) = true := by
  induction X with
  | nil =>
      simp only [List.nil_append] at h ⊢
      rw [emptiesFirst_cons] at h
      by_cases hs : Slab.isEmpty c s = true
      · rw [hs] at h; simpa using h
      · rw [Bool.not_eq_true] at hs
        rw [hs] at h
        simp only [Bool.false_eq_true, if_false] at h
        exact EF_of_allNot c Y h
  | cons a tl ih =>
      rw [List.cons_append, emptiesFirst_cons] at h
      rw [List.cons_append, emptiesFirst_cons]
      by_cases ha : Slab.isEmpty c a = true
      · rw [ha] at h ⊢; simp only [if_true] at h ⊢; exact ih h
      · rw [Bool.not_eq_true] at ha
        rw [ha] at h ⊢
        simp only [Bool.false_eq_true, if_false] at h ⊢
        rw [allNotEmpty, List.all_append, List.all_cons] at h
        rw [allNotEmpty, List.all_append]
        simp only [Bool.and_eq_true] at h ⊢
        exact ⟨h.1, h.2.2⟩

theorem EF_append_allNot (c : Slab_cache) (X Y : List Slab)
    (hY : allNotEmpty c Y = true) (hX : emptiesFirst c X = true) :
    emptiesFirst c (X ++ Y) = true := by
  induction X with
  | nil => simpa using EF_of_allNot c Y hY
  | cons a tl ih =>
      rw [List.cons_append, emptiesFirst_cons]
      rw [emptiesFirst_cons] at hX
      by_cases ha : Slab.isEmpty c a = true
      · rw [ha] at hX ⊢; simp only [if_true] at hX ⊢; exact ih hX
      · rw [Bool.not_eq_true] at ha
        rw [ha] at hX ⊢
        simp only [Bool.false_eq_true, if_false] at hX ⊢
        rw [allNotEmpty, List.all_append, Bool.and_eq_true]
        exact ⟨hX, hY⟩

theorem EF_subst (c : Slab_cache) (X : List Slab) (s t : Slab) (Y : List Slab)
    (hst : Slab.isEmpty c s = Slab.isEmpty c t)
    (h : emptiesFirst c (X ++ s :: Y) = true) :
    emptiesFirst c (X ++ t :: Y) = true := by
  induction X with
  | nil =>
      simp only [List.nil_append] at h ⊢
      rw [emptiesFirst_cons] at h ⊢
      rw [← hst]
      by_cases hs : Slab.isEmpty c s = true
      · rw [hs] at h ⊢; exact h
      · rw [Bool.not_eq_true] at hs
        rw [hs] at h ⊢
        exact h
  | cons a tl ih =>
      rw [List.cons_append, emptiesFirst_cons] at h
      rw [List.cons_append, emptiesFirst_cons]
      by_cases ha : Slab.isEmpty c a = true
      · rw [ha] at h ⊢; simp only [if_true] at h ⊢; exact ih h
      · rw [Bool.not_eq_true] at ha
        rw [ha] at h ⊢
        simp only [Bool.false_eq_true, if_false] at h ⊢
        rw [allNotEmpty, List.all_append, List.all_cons] at h
        rw [allNotEmpty, List.all_append, List.all_cons]
        simp only [Bool.and_eq_true] at h ⊢
        refine ⟨h.1, ?_, h.2.2⟩
        rw [← hst]
        exact h.2.1

theorem EF_parts (c : Slab_cache) (X Y : List Slab)
    (hX : ∀ x ∈ X, Slab.isEmpty c x = true) (hY : allNotEmpty c Y = true) :
    emptiesFirst c (X ++ Y) = true := by
  induction X with
  | nil => simpa using EF_of_allNot c Y hY
  | cons a tl ih =>
      rw [List.cons_append, emptiesFirst_cons, hX a (by simp)]
      simp only [if_true]
      exact ih (fun x hx => hX x (by simp [hx]))

theorem EF_empty_mid (c : Slab_cache) (X : List Slab) (s : Slab) (Y : List Slab)
    (h : emptiesFirst c (X ++ s :: Y) = true) (hs : Slab.isEmpty c s = true) :
    ∀ x ∈ X, Slab.isEmpty c x = true := by
  induction X with
  | nil => simp
  | cons a tl ih =>
      intro x hx
      rw [List.cons_append, emptiesFirst_cons] at h
      by_cases ha : Slab.isEmpty c a = true
      · rcases List.mem_cons.mp hx with rfl | hx
        · exact ha
        · rw [ha] at h; simp only [if_true] at h
          exact ih h x hx
      · exfalso
        rw [Bool.not_eq_true] at ha
        rw [ha] at h
        simp only [Bool.false_eq_true, if_false] at h
        rw [allNotEmpty, List.all_append, List.all_cons] at h
        simp only [Bool.and_eq_true] at h
        rw [hs] at h
        simp at h

theorem EF_last_empty (c : Slab_cache) (X : List Slab) (pv : Slab)
    (h : emptiesFirst c X = true) (hl : X.getLast? = some pv)
    (hpv : Slab.isEmpty c pv = true) : ∀ x ∈ X, Slab.isEmpty c x = true := by
  obtain ⟨X1, rfl⟩ := List.getLast?_eq_some_iff.mp hl
  intro x hx
  rcases List.mem_append.mp hx with hx | hx
  · exact EF_empty_mid c X1 pv [] (by simpa using h) hpv x hx
  · simp only [List.mem_singleton] at hx
    subst hx
    exact hpv

theorem ll_cons_eq (c : Slab_cache) (b p : Nat) (live : List Nat)
    (h : pageOf p = b) :
    liveLinksOf c b (p :: live) = (p + c.size) :: liveLinksOf c b live := by
  simp [liveLinksOf, List.filter_cons, h]

theorem ll_cons_ne (c : Slab_cache) (b p : Nat) (live : List Nat)
    (h : pageOf p ≠ b) :
    liveLinksOf c b (p :: live) = liveLinksOf c b live := by
  simp [liveLinksOf, List.filter_cons, h]

theorem ll_perm (c : Slab_cache) (b : Nat) (live live' : List Nat)
    (h : live.Perm live') :
    (liveLinksOf c b live).Perm (liveLinksOf c b live') :=
  (h.filter _).map _

theorem ll_erase_eq (c : Slab_cache) (b p : Nat) (live : List Nat)
    (hp : p ∈ live) (h : pageOf p = b) :
    ((p + c.size) :: liveLinksOf c b (live.erase p)).Perm
      (liveLinksOf c b live) := by
  have h1 : live.Perm (p :: live.erase p) := List.perm_cons_erase hp
  have h2 := ll_perm c b live (p :: live.erase p) h1
  rw [ll_cons_eq c b p _ h] at h2
  exact h2.symm

theorem ll_erase_ne (c : Slab_cache) (b p : Nat) (live : List Nat)
    (h : pageOf p ≠ b) :
    (liveLinksOf c b (live.erase p)).Perm (liveLinksOf c b live) := by
  by_cases hp : p ∈ live
  · have h1 : live.Perm (p :: live.erase p) := List.perm_cons_erase hp
    have h2 := ll_perm c b live (p :: live.erase p) h1
    rw [ll_cons_ne c b p _ h] at h2
    exact h2.symm
  · rw [List.erase_of_not_mem hp]

theorem ll_mem (c : Slab_cache) (b p : Nat) (live : List Nat)
    (hp : p ∈ live) (h : pageOf p = b) :
    p + c.size ∈ liveLinksOf c b live := by
  apply List.mem_map_of_mem
  rw [List.mem_filter]
  exact ⟨hp, by simp [h]⟩

theorem acc_avail_le (c : Slab_cache) (s : Slab) (live : List Nat)
    (h1 : s.avail = s.freeList.length)
    (h2 : (s.freeList ++ liveLinksOf c s.base live).Perm (slabLinks c s.base)) :
    s.avail + (liveLinksOf c s.base live).length = c.elem := by
  have h3 := h2.length_eq
  rw [List.length_append, slabLinks_length] at h3
  omega

theorem mem_slabs_of_split (st : State) (L : List Slab) (s : Slab)
    (R : List Slab) (hl : st.slabs = L ++ s :: R) : s ∈ st.slabs := by
  rw [hl]; exact List.mem_append.mpr (Or.inr (List.mem_cons_self _ _))

theorem free_core (st : State) (live : List Nat) (hInv : CacheInv st live)
    (p : Nat) (hp : p ∈ live)
    (L : List Slab) (s : Slab) (R : List Slab)
    (hsplit : findSplit st.slabs (pageOf p) = some (L, s, R))
    (newSlabs : List Slab)
    (hperm : newSlabs.Perm (Slab.free1 st.cache s p :: (L ++ R))) :
    ((newSlabs.map Slab.base).Nodup) ∧
    (∀ t ∈ newSlabs, ∃ k, k < st.nextPage ∧ t.base = k * PAGE_SIZE) ∧
    (∀ t ∈ newSlabs, t.avail = t.freeList.length ∧
       (t.freeList ++ liveLinksOf st.cache t.base (live.erase p)).Perm
         (slabLinks st.cache t.base)) ∧
    (∀ q ∈ live.erase p, pageOf q ∈ newSlabs.map Slab.base) ∧
    (live.erase p).Nodup := by
  obtain ⟨hl, hsb, hnotL⟩ := findSplit_eq _ _ _ _ _ hsplit
  have hsmem : s ∈ st.slabs := mem_slabs_of_split st L s R hl
  have hLRnot := bases_split st.slabs hInv.basesNodup L s R hl
  have hbp : (newSlabs.map Slab.base).Perm (st.slabs.map Slab.base) := by
    have h1 := hperm.map Slab.base
    rw [List.map_cons, free1_base, List.map_append] at h1
    have h2 : (st.slabs.map Slab.base).Perm
        (s.base :: (L.map Slab.base ++ R.map Slab.base)) := by
      rw [hl, List.map_append, List.map_cons]
      exact List.perm_middle
    exact h1.trans h2.symm
  refine ⟨hbp.symm.nodup hInv.basesNodup, ?_, ?_, ?_, ?_⟩
  · intro t ht
    have ht2 := hperm.subset ht
    rcases List.mem_cons.mp ht2 with rfl | ht2
    · rw [free1_base]
      exact hInv.basesPage s hsmem
    · apply hInv.basesPage
      rw [hl]
      rcases List.mem_append.mp ht2 with h | h
      · exact List.mem_append.mpr (Or.inl h)
      · exact List.mem_append.mpr (Or.inr (List.mem_cons.mpr (Or.inr h)))
  · intro t ht
    have ht2 := hperm.subset ht
    obtain ⟨ha1, ha2⟩ := hInv.acc s hsmem
    rcases List.mem_cons.mp ht2 with rfl | ht2
    · constructor
      · rw [free1_avail, free1_freeList, List.length_cons, ha1]
      · rw [free1_freeList, free1_base, List.cons_append]
        have hstep1 : ((p + st.cache.size) :: (s.freeList ++
            liveLinksOf st.cache s.base (live.erase p))).Perm
            (s.freeList ++ ((p + st.cache.size) ::
              liveLinksOf st.cache s.base (live.erase p))) :=
          List.perm_middle.symm
        have hstep2 : (s.freeList ++ ((p + st.cache.size) ::
            liveLinksOf st.cache s.base (live.erase p))).Perm
            (s.freeList ++ liveLinksOf st.cache s.base live) :=
          List.Perm.append_left _ (ll_erase_eq st.cache s.base p live hp hsb.symm)
        exact (hstep1.trans hstep2).trans ha2
    · have htmem : t ∈ st.slabs := by
        rw [hl]
        rcases List.mem_append.mp ht2 with h | h
        · exact List.mem_append.mpr (Or.inl h)
        · exact List.mem_append.mpr (Or.inr (List.mem_cons.mpr (Or.inr h)))
      obtain ⟨hb1, hb2⟩ := hInv.acc t htmem
      have htb : t.base ≠ s.base := by
        rcases List.mem_append.mp ht2 with h | h
        · exact hLRnot.1 t h
        · exact hLRnot.2 t h
      have hne : pageOf p ≠ t.base := by rw [← hsb]; exact fun h => htb h.symm
      refine ⟨hb1, ?_⟩
      have hstep : (t.freeList ++
          liveLinksOf st.cache t.base (live.erase p)).Perm
          (t.freeList ++ liveLinksOf st.cache t.base live) :=
        List.Perm.append_left _ (ll_erase_ne st.cache t.base p live hne)
      exact hstep.trans hb2
  · intro q hq
    have hq2 : q ∈ live := List.mem_of_mem_erase hq
    have := hInv.owned q hq2
    exact (hbp.mem_iff).mpr this
  · exact (List.erase_sublist p live).nodup hInv.liveND

theorem alloc_core (st : State) (live : List Nat) (hInv : CacheInv st live)
    (L : List Slab) (s : Slab) (R : List Slab)
    (hl : st.slabs = L ++ s :: R)
    (link : Nat) (rest : List Nat) (hfl : s.freeList = link :: rest) :
    (((L ++ { s with avail := s.avail - 1, freeList := rest } :: R).map
        Slab.base).Nodup) ∧
    (∀ t ∈ L ++ { s with avail := s.avail - 1, freeList := rest } :: R,
        ∃ k, k < st.nextPage ∧ t.base = k * PAGE_SIZE) ∧
    (∀ t ∈ L ++ { s with avail := s.avail - 1, freeList := rest } :: R,
        t.avail = t.freeList.length ∧
        (t.freeList ++
          liveLinksOf st.cache t.base ((link - st.cache.size) :: live)).Perm
            (slabLinks st.cache t.base)) ∧
    (∀ q ∈ (link - st.cache.size) :: live,
        pageOf q ∈ (L ++ { s with avail := s.avail - 1, freeList := rest } :: R).map
          Slab.base) ∧
    ((link - st.cache.size) :: live).Nodup ∧
    pageOf (link - st.cache.size) = s.base ∧
    link - st.cache.size + st.cache.size = link := by
  have hsmem : s ∈ st.slabs := mem_slabs_of_split st L s R hl
  have hLRnot := bases_split st.slabs hInv.basesNodup L s R hl
  obtain ⟨ha1, ha2⟩ := hInv.acc s hsmem
  obtain ⟨k, hk, hkb⟩ := hInv.basesPage s hsmem
  have hlinkfl : link ∈ s.freeList := by rw [hfl]; exact List.mem_cons_self _ _
  have hlinkmem : link ∈ slabLinks st.cache s.base :=
    ha2.mem_iff.mp (List.mem_append.mpr (Or.inl hlinkfl))
  have hpage : pageOf (link - st.cache.size) = s.base := by
    rw [hkb] at hlinkmem ⊢
    exact pageOf_link st.cache hInv.wf k link hlinkmem
  have hradd : link - st.cache.size + st.cache.size = link :=
    (link_sub_add st.cache hInv.wf s.base link hlinkmem).1
  have hbeq : (L ++ { s with avail := s.avail - 1, freeList := rest } :: R).map
      Slab.base = st.slabs.map Slab.base := by
    rw [hl, List.map_append, List.map_append, List.map_cons, List.map_cons]
  have hretnot : link - st.cache.size ∉ live := by
    intro hmem
    have h1 : link ∈ liveLinksOf st.cache s.base live := by
      have := ll_mem st.cache s.base (link - st.cache.size) live hmem hpage
      rwa [hradd] at this
    have h2 : (s.freeList ++ liveLinksOf st.cache s.base live).Nodup :=
      ha2.symm.nodup (slabLinks_nodup st.cache hInv.wf s.base)
    have h3 := (List.nodup_append.mp h2).2.2
    exact h3 (by exact hlinkfl) h1
  refine ⟨by rw [hbeq]; exact hInv.basesNodup, ?_, ?_, ?_, ?_, hpage, hradd⟩
  · intro t ht
    rcases List.mem_append.mp ht with h | h
    · exact hInv.basesPage t (by rw [hl]; exact List.mem_append.mpr (Or.inl h))
    · rcases List.mem_cons.mp h with rfl | h
      · exact ⟨k, hk, hkb⟩
      · exact hInv.basesPage t
          (by rw [hl];
              exact List.mem_append.mpr (Or.inr (List.mem_cons.mpr (Or.inr h))))
  · intro t ht
    rcases List.mem_append.mp ht with h | h
    · have htmem : t ∈ st.slabs := by
        rw [hl]; exact List.mem_append.mpr (Or.inl h)
      obtain ⟨hb1, hb2⟩ := hInv.acc t htmem
      have htb : t.base ≠ s.base := hLRnot.1 t h
      refine ⟨hb1, ?_⟩
      rw [ll_cons_ne st.cache t.base _ live (by rw [hpage]; exact fun hh => htb hh.symm)]
      exact hb2
    · rcases List.mem_cons.mp h with rfl | h
      · constructor
        · show s.avail - 1 = rest.length
          have hcount : s.avail = rest.length + 1 := by
            rw [ha1, hfl, List.length_cons]
          omega
        · simp only
          rw [ll_cons_eq st.cache s.base _ live hpage, hradd]
          have hstep : (rest ++ link :: liveLinksOf st.cache s.base live).Perm
              (link :: (rest ++ liveLinksOf st.cache s.base live)) :=
            List.perm_middle
          refine hstep.trans ?_
          have : link :: (rest ++ liveLinksOf st.cache s.base live) =
              (link :: rest) ++ liveLinksOf st.cache s.base live := by
            simp
          rw [this, ← hfl]
          exact ha2
      · have htmem : t ∈ st.slabs := by
          rw [hl]
          exact List.mem_append.mpr (Or.inr (List.mem_cons.mpr (Or.inr h)))
        obtain ⟨hb1, hb2⟩ := hInv.acc t htmem
        have htb : t.base ≠ s.base := hLRnot.2 t h
        refine ⟨hb1, ?_⟩
        rw [ll_cons_ne st.cache t.base _ live (by rw [hpage]; exact fun hh => htb hh.symm)]
        exact hb2
  · intro q hq
    rw [hbeq]
    rcases List.mem_cons.mp hq with rfl | hq
    · rw [hpage]
      exact List.mem_map_of_mem _ hsmem
    · exact hInv.owned q hq
  · exact List.nodup_cons.mpr ⟨hretnot, hInv.liveND⟩

theorem allNot_cons (c : Slab_cache) (x : Slab) (l : List Slab) :
    allNotEmpty c (x :: l) = (!(Slab.isEmpty c x) && allNotEmpty c l) := by
  rw [allNotEmpty, List.all_cons, allNotEmpty]

theorem ll_nil (c : Slab_cache) (b : Nat) (live : List Nat)
    (h : ∀ p ∈ live, pageOf p ≠ b) : liveLinksOf c b live = [] := by
  rw [liveLinksOf]
  have : live.filter (fun p => pageOf p == b) = [] := by
    rw [List.filter_eq_nil_iff]
    intro p hp
    simp [h p hp]
  rw [this, List.map_nil]

theorem page_ne_of_lt (k n : Nat) (h : k < n) :
    k * PAGE_SIZE ≠ n * PAGE_SIZE := by
  have hP : 0 < PAGE_SIZE := by norm_num [PAGE_SIZE]
  intro he
  have := Nat.eq_of_mul_eq_mul_right hP he
  omega

theorem growInv (st : State) (live : List Nat) (hInv : CacheInv st live)
    (hc : st.curr = none) : CacheInv st.grow live := by
  have hallfull : ∀ s ∈ st.slabs, s.full = true := by
    rcases hInv.ord with ⟨_, h⟩ | ⟨A, s, B, _, hcur, _⟩
    · exact h
    · rw [hc] at hcur; exact absurd hcur (by simp)
  have hfreshbase : ∀ s ∈ st.slabs, s.base ≠ st.nextPage * PAGE_SIZE := by
    intro s hs
    obtain ⟨k, hk, hkb⟩ := hInv.basesPage s hs
    rw [hkb]
    exact page_ne_of_lt k st.nextPage hk
  have hllnil : liveLinksOf st.cache (st.nextPage * PAGE_SIZE) live = [] := by
    apply ll_nil
    intro p hp
    obtain ⟨s, hs, hsb⟩ := List.mem_map.mp (hInv.owned p hp)
    rw [← hsb]
    exact hfreshbase s hs
  have helem : 0 < st.cache.elem := hInv.wf.1
  refine ⟨hInv.wf, ?_, ?_, ?_, ?_, hInv.liveND, ?_, ?_⟩
  · rw [State.grow]
    simp only [List.map_cons]
    rw [List.nodup_cons]
    constructor
    · intro hmem
      obtain ⟨s, hs, hsb⟩ := List.mem_map.mp hmem
      exact hfreshbase s hs hsb
    · exact hInv.basesNodup
  · intro s hs
    rw [State.grow] at hs
    simp only [List.mem_cons] at hs
    rcases hs with rfl | hs
    · exact ⟨st.nextPage, by simp [State.grow], by simp [Slab.mk0, State.grow]⟩
    · obtain ⟨k, hk, hkb⟩ := hInv.basesPage s hs
      exact ⟨k, by simp [State.grow]; omega, hkb⟩
  · intro s hs
    rw [State.grow] at hs
    simp only [List.mem_cons] at hs
    rcases hs with rfl | hs
    · constructor
      · show st.cache.elem = _
        rw [mk0_freeList st.cache hInv.wf, List.length_reverse, slabLinks_length]
      · show ((Slab.mk0 st.cache (st.nextPage * PAGE_SIZE)).freeList ++
          liveLinksOf st.cache (Slab.mk0 st.cache (st.nextPage * PAGE_SIZE)).base live).Perm _
        have hbase : (Slab.mk0 st.cache (st.nextPage * PAGE_SIZE)).base =
            st.nextPage * PAGE_SIZE := rfl
        rw [hbase, hllnil, List.append_nil, mk0_freeList st.cache hInv.wf]
        exact (List.reverse_perm _)
    · exact hInv.acc s hs
  · intro p hp
    rw [State.grow]
    simp only [List.map_cons, List.mem_cons]
    exact Or.inr (hInv.owned p hp)
  · right
    refine ⟨[], Slab.mk0 st.cache (st.nextPage * PAGE_SIZE), st.slabs, ?_, ?_, ?_, ?_, ?_⟩
    · simp [State.grow]
    · simp [State.grow]
    · rw [full_false_iff]
      show st.cache.elem ≠ 0
      omega
    · simp
    · exact hallfull
  · show emptiesFirst st.cache (Slab.mk0 st.cache (st.nextPage * PAGE_SIZE) :: st.slabs) = true
    rw [emptiesFirst_cons]
    have : Slab.isEmpty st.cache (Slab.mk0 st.cache (st.nextPage * PAGE_SIZE)) = true := by
      rw [slab_isEmpty_iff]; rfl
    rw [this]
    simp only [if_true]
    exact hInv.seg

theorem allocFromCurr (st : State) (live : List Nat) (hInv : CacheInv st live)
    (cb : Nat) (hc : st.curr = some cb) :
    ∃ st2 ret, State.alloc st = some (st2, ret) ∧ CacheInv st2 (ret :: live) ∧
      st2.cache = st.cache ∧ st2.nextPage = st.nextPage ∧
      st2.slabs.map Slab.base = st.slabs.map Slab.base ∧
      (∀ A1 t B1, st.slabs = A1 ++ t :: B1 → t.base = cb →
        st2.slabs = A1 ++
          { t with avail := t.avail - 1, freeList := t.freeList.tail } :: B1) := by
  obtain ⟨A, s, B, hl, hcur, hnf, hA, hB⟩ :
      ∃ A s B, st.slabs = A ++ s :: B ∧ st.curr = some s.base ∧
        s.full = false ∧ (∀ a ∈ A, a.full = false) ∧ (∀ b ∈ B, b.full = true) := by
    rcases hInv.ord with ⟨h0, _⟩ | h
    · rw [hc] at h0; exact absurd h0 (by simp)
    · exact h
  have hcb : cb = s.base := by
    rw [hc] at hcur; exact (Option.some.inj hcur)
  subst hcb
  have hfs : findSplit st.slabs s.base = some (A, s, B) := by
    rw [hl]
    exact findSplit_app A s B s.base
      (bases_split st.slabs hInv.basesNodup A s B hl).1 rfl
  obtain ⟨ha1, ha2⟩ := hInv.acc s (mem_slabs_of_split st A s B hl)
  have havail : s.avail ≠ 0 := (full_false_iff s).mp hnf
  have hfl : ∃ link rest, s.freeList = link :: rest := by
    cases hfle : s.freeList with
    | nil => rw [hfle, List.length_nil] at ha1; exact absurd ha1 havail
    | cons link rest => exact ⟨link, rest, rfl⟩
  obtain ⟨link, rest, hfl⟩ := hfl
  obtain ⟨hcore1, hcore2, hcore3, hcore4, hcore5, hpage, hradd⟩ :=
    alloc_core st live hInv A s B hl link rest hfl
  have havail_le := acc_avail_le st.cache s live ha1 ha2
  have helem : 0 < st.cache.elem := hInv.wf.1
  refine ⟨{ st with
            slabs := A ++ { s with avail := s.avail - 1, freeList := rest } :: B,
            curr := if Slab.full { s with avail := s.avail - 1, freeList := rest }
                    then (A.getLast?).map Slab.base else some s.base },
          link - st.cache.size, ?_, ?_, rfl, rfl, ?_, ?_⟩
  · rw [State.alloc]
    simp only [hc]
    rw [hfs]
    simp only [Slab.alloc1, hfl]
  · have hs2e : Slab.isEmpty st.cache
        { s with avail := s.avail - 1, freeList := rest } = false := by
      rw [slab_isEmpty_false_iff]
      show s.avail - 1 ≠ st.cache.elem
      omega
    have hseg2 : emptiesFirst st.cache
        (A ++ { s with avail := s.avail - 1, freeList := rest } :: B) = true := by
      have hEFA : emptiesFirst st.cache A = true := by
        apply EF_append_left st.cache A (s :: B)
        rw [← hl]; exact hInv.seg
      apply EF_append_allNot
      · rw [allNot_cons, hs2e]
        simp only [Bool.not_false, Bool.true_and]
        exact allNot_of_all_full st.cache hInv.wf B hB
      · exact hEFA
    refine ⟨hInv.wf, hcore1, hcore2, hcore3, hcore4, hcore5, ?_, hseg2⟩
    by_cases hs2f : Slab.full { s with avail := s.avail - 1, freeList := rest } = true
    · rcases List.eq_nil_or_concat A with rfl | ⟨A1, pv, hA1⟩
      · left
        constructor
        · simp [hs2f]
        · intro t ht
          simp only [List.nil_append, List.mem_cons] at ht
          rcases ht with rfl | ht
          · exact hs2f
          · exact hB t ht
      · right
        rw [List.concat_eq_append] at hA1
        refine ⟨A1, pv, { s with avail := s.avail - 1, freeList := rest } :: B,
                ?_, ?_, ?_, ?_, ?_⟩
        · rw [hA1]; simp
        · simp only [hs2f, if_true]
          rw [hA1, List.getLast?_concat]
          rfl
        · exact hA pv (by rw [hA1]; simp)
        · intro a ha; exact hA a (by rw [hA1]; simp [ha])
        · intro t ht
          rcases List.mem_cons.mp ht with rfl | ht
          · exact hs2f
          · exact hB t ht
    · right
      refine ⟨A, { s with avail := s.avail - 1, freeList := rest }, B, rfl, ?_,
              by simpa using hs2f, hA, hB⟩
      simp only [Bool.not_eq_true] at hs2f
      simp [hs2f]
  · rw [hl]
    simp [List.map_append]
  · intro A1 t B1 hdec htb
    obtain ⟨h7, h8, h9⟩ :=
      nodup_middle st.slabs hInv.basesNodup A s B A1 t B1 hl hdec htb.symm
    rw [← h7, ← h8, ← h9, hfl]
    rfl

theorem alloc_grow_eq (st : State) (h : st.curr = none) :
    State.alloc st = State.alloc st.grow := by
  rw [State.alloc, State.alloc]
  simp only [h, State.grow]

theorem grow_curr (st : State) :
    st.grow.curr = some (st.nextPage * PAGE_SIZE) := rfl

theorem allocSpec (st : State) (live : List Nat) (hInv : CacheInv st live) :
    ∃ st2 ret, State.alloc st = some (st2, ret) ∧ CacheInv st2 (ret :: live) ∧
      st2.cache = st.cache ∧
      (st.curr = none → st2.nextPage = st.nextPage + 1 ∧
        st2.slabs.length = st.slabs.length + 1 ∧ st2.slabs.tail = st.slabs) ∧
      (st.curr ≠ none → st2.nextPage = st.nextPage ∧
        st2.slabs.map Slab.base = st.slabs.map Slab.base) := by
  cases hc : st.curr with
  | none =>
      have hInv2 := growInv st live hInv hc
      obtain ⟨st2, ret, h1, h2, h3, h4, h5, h6⟩ :=
        allocFromCurr st.grow live hInv2 (st.nextPage * PAGE_SIZE) (grow_curr st)
      have hdec := h6 [] (Slab.mk0 st.cache (st.nextPage * PAGE_SIZE)) st.slabs
        rfl rfl
      refine ⟨st2, ret, ?_, h2, by rw [h3]; rfl, ?_, ?_⟩
      · rw [alloc_grow_eq st hc]; exact h1
      · intro _
        refine ⟨by rw [h4]; rfl, ?_, ?_⟩
        · rw [hdec]; rfl
        · rw [hdec]; rfl
      · intro hne; exact absurd rfl hne
  | some cb =>
      obtain ⟨st2, ret, h1, h2, h3, h4, h5, h6⟩ := allocFromCurr st live hInv cb hc
      refine ⟨st2, ret, h1, h2, h3, fun h => by simp at h, fun _ => ⟨h4, h5⟩⟩

theorem EF_cons_allNot (c : Slab_cache) (x : Slab) (l : List Slab)
    (h : allNotEmpty c l = true) : emptiesFirst c (x :: l) = true := by
  rw [emptiesFirst_cons]
  by_cases hx : Slab.isEmpty c x = true
  · rw [hx]; simp only [if_true]; exact EF_of_allNot c l h
  · rw [Bool.not_eq_true] at hx
    rw [hx]
    simpa using h

theorem EF_peel (c : Slab_cache) (X Y : List Slab)
    (hX : ∀ x ∈ X, Slab.isEmpty c x = true)
    (h : emptiesFirst c (X ++ Y) = true) : emptiesFirst c Y = true := by
  induction X with
  | nil => simpa using h
  | cons a tl ih =>
      rw [List.cons_append, emptiesFirst_cons, hX a (by simp)] at h
      simp only [if_true] at h
      exact ih (fun x hx => hX x (by simp [hx])) h

theorem EF_chunk (c : Slab_cache) (A : List Slab) (cs s2 : Slab) (Y : List Slab)
    (hEFA : emptiesFirst c A = true)
    (hcsA : Slab.isEmpty c cs = true → ∀ x ∈ A, Slab.isEmpty c x = true)
    (hs2 : Slab.isEmpty c s2 = true → Slab.isEmpty c cs = true)
    (hY : allNotEmpty c Y = true) :
    emptiesFirst c (A ++ cs :: s2 :: Y) = true := by
  by_cases hcs : Slab.isEmpty c cs = true
  · have hAemp := hcsA hcs
    by_cases hs2e : Slab.isEmpty c s2 = true
    · have hshape : A ++ cs :: s2 :: Y = (A ++ [cs, s2]) ++ Y := by simp
      rw [hshape]
      apply EF_parts
      · intro x hx
        rcases List.mem_append.mp hx with h | h
        · exact hAemp x h
        · simp only [List.mem_cons, List.mem_singleton] at h
          rcases h with rfl | h
          · exact hcs
          · rcases h with rfl | h
            · exact hs2e
            · simp at h
      · exact hY
    · have hshape : A ++ cs :: s2 :: Y = (A ++ [cs]) ++ s2 :: Y := by simp
      rw [hshape]
      apply EF_parts
      · intro x hx
        rcases List.mem_append.mp hx with h | h
        · exact hAemp x h
        · simp only [List.mem_singleton] at h
          subst h; exact hcs
      · rw [allNot_cons]
        rw [Bool.not_eq_true] at hs2e
        rw [hs2e]
        simpa using hY
  · rw [Bool.not_eq_true] at hcs
    apply EF_append_allNot
    · rw [allNot_cons, hcs, allNot_cons]
      have hs2e : Slab.isEmpty c s2 = false := by
        rcases Bool.eq_false_or_eq_true (Slab.isEmpty c s2) with h | h
        · rw [hs2 h] at hcs; simp at hcs
        · exact h
      rw [hs2e]
      simpa using hY
    · exact hEFA

theorem free_pre (st : State) (live : List Nat) (hInv : CacheInv st live)
    (p : Nat) (hp : p ∈ live) :
    ∃ L s R, findSplit st.slabs (pageOf p) = some (L, s, R) ∧
      st.slabs = L ++ s :: R ∧ s.base = pageOf p ∧ s.avail < st.cache.elem := by
  obtain ⟨L, s, R, hsplit⟩ := findSplit_mem st.slabs (pageOf p) (hInv.owned p hp)
  obtain ⟨hl, hsb, -⟩ := findSplit_eq _ _ _ _ _ hsplit
  obtain ⟨ha1, ha2⟩ := hInv.acc s (mem_slabs_of_split st L s R hl)
  have hmm : p + st.cache.size ∈ liveLinksOf st.cache s.base live :=
    ll_mem _ _ _ _ hp hsb.symm
  have hlen := acc_avail_le st.cache s live ha1 ha2
  have hpos : 0 < (liveLinksOf st.cache s.base live).length :=
    List.length_pos.mpr (List.ne_nil_of_mem hmm)
  exact ⟨L, s, R, hsplit, hl, hsb, by omega⟩

theorem freeSpecFull (st : State) (live : List Nat) (hInv : CacheInv st live)
    (p : Nat) (hp : p ∈ live)
    (L : List Slab) (s : Slab) (R : List Slab)
    (hsplit : findSplit st.slabs (pageOf p) = some (L, s, R))
    (hsf : s.full = true) :
    ∃ st2 X Y, State.free st p = some st2 ∧
      st2.slabs = X ++ Slab.free1 st.cache s p :: Y ∧
      CacheInv st2 (live.erase p) ∧
      st2.cache = st.cache ∧ st2.nextPage = st.nextPage ∧
      st2.curr = some s.base := by
  obtain ⟨hl, hsb, hLnot⟩ := findSplit_eq _ _ _ _ _ hsplit
  have hsmem := mem_slabs_of_split st L s R hl
  have helem : 0 < st.cache.elem := hInv.wf.1
  have hs2nf := free1_not_full st.cache s p
  have hs2av : (Slab.free1 st.cache s p).avail = 1 := by
    rw [free1_avail, (full_iff s).mp hsf]
  rcases hInv.ord with ⟨hcnone, hallfull⟩ | ⟨A, cs, B, hlA, hcur, hcsnf, hA, hB⟩
  · -- cursor is null and every slab is full
    have hallR : ∀ t ∈ R, t.full = true := by
      intro t ht
      apply hallfull
      rw [hl]
      exact List.mem_append.mpr (Or.inr (List.mem_cons.mpr (Or.inr ht)))
    rcases List.eq_nil_or_concat L with rfl | ⟨L1, pv, hL⟩
    · -- no prev neighbour: no requeue, cursor moves to this slab
      refine ⟨{ st with slabs := [] ++ Slab.free1 st.cache s p :: R,
                        curr := some (Slab.free1 st.cache s p).base },
              [], R, ?_, rfl, ?_, rfl, rfl, rfl⟩
      · simp only [State.free, hsplit, hsf, eq_self_iff_true, if_true,
                   List.getLast?_nil]
      · obtain ⟨c1, c2, c3, c4, c5⟩ := free_core st live hInv p hp [] s R hsplit
          ([] ++ Slab.free1 st.cache s p :: R) (by simp)
        refine ⟨hInv.wf, c1, c2, c3, c4, c5, ?_, ?_⟩
        · right
          exact ⟨[], Slab.free1 st.cache s p, R, rfl, rfl, hs2nf,
                 by simp, hallR⟩
        · exact EF_cons_allNot st.cache _ R
            (allNot_of_all_full st.cache hInv.wf R hallR)
    · -- prev neighbour exists; it is full, and curr is null: requeue as head
      rw [List.concat_eq_append] at hL
      subst hL
      have hlast : (L1 ++ [pv]).getLast? = some pv := List.getLast?_concat _
      have hpvf : pv.full = true := hallfull pv
        (by rw [hl]; exact List.mem_append.mpr (Or.inl (by simp)))
      cases hLR : (L1 ++ [pv]) ++ R with
      | nil => exact absurd hLR (by simp)
      | cons hd tl =>
          have hallLR : ∀ t ∈ hd :: tl, t.full = true := by
            rw [← hLR]
            intro t ht
            rcases List.mem_append.mp ht with h | h
            · exact hallfull t (by rw [hl]; exact List.mem_append.mpr (Or.inl h))
            · exact hallR t h
          refine ⟨{ st with
                    slabs := Slab.free1 st.cache s p :: hd :: tl,
                    curr := some (Slab.free1 st.cache s p).base },
                  [], hd :: tl, ?_, rfl, ?_, rfl, rfl, rfl⟩
          · simp only [State.free, hsplit, hsf, eq_self_iff_true, if_true,
                       hlast, hpvf, hcnone, hLR]
          · obtain ⟨c1, c2, c3, c4, c5⟩ := free_core st live hInv p hp _ s R hsplit
              (Slab.free1 st.cache s p :: hd :: tl) (by rw [hLR])
            refine ⟨hInv.wf, c1, c2, c3, c4, c5, ?_, ?_⟩
            · right
              exact ⟨[], Slab.free1 st.cache s p, hd :: tl, rfl, rfl, hs2nf,
                     by simp, hallLR⟩
            · exact EF_cons_allNot st.cache _ _
                (allNot_of_all_full st.cache hInv.wf _ hallLR)
  · -- cursor at slab cs; the freed slab is full hence on the tail side of cs
    have hsB : s ∈ B := by
      have hx := hsmem
      rw [hlA] at hx
      rcases List.mem_append.mp hx with h | h
      · rw [hA s h] at hsf; exact absurd hsf (by simp)
      · rcases List.mem_cons.mp h with rfl | h
        · rw [hcsnf] at hsf; exact absurd hsf (by simp)
        · exact h
    obtain ⟨B1, B2, hBsplit⟩ := List.append_of_mem hsB
    have hlA2 : st.slabs = (A ++ cs :: B1) ++ s :: B2 := by
      rw [hlA, hBsplit]; simp
    obtain ⟨hLeq, -, hReq⟩ := nodup_middle st.slabs hInv.basesNodup L s R
      (A ++ cs :: B1) s B2 hl hlA2 rfl
    subst hLeq
    subst hReq
    have hAnotcs : ∀ x ∈ A, x.base ≠ cs.base :=
      (bases_split st.slabs hInv.basesNodup A cs B hlA).1
    obtain ⟨hcsa1, hcsa2⟩ := hInv.acc cs
      (by rw [hlA]; exact List.mem_append.mpr (Or.inr (List.mem_cons_self _ _)))
    have hcsle := acc_avail_le st.cache cs live hcsa1 hcsa2
    have hs2cs : Slab.isEmpty st.cache (Slab.free1 st.cache s p) = true →
        Slab.isEmpty st.cache cs = true := by
      rw [slab_isEmpty_iff, slab_isEmpty_iff, hs2av]
      intro h1
      have := (full_false_iff cs).mp hcsnf
      omega
    have hsegA : emptiesFirst st.cache (A ++ cs :: B) = true := by
      rw [← hlA]; exact hInv.seg
    have hEFA : emptiesFirst st.cache A = true :=
      EF_append_left st.cache A (cs :: B) hsegA
    have hcsA : Slab.isEmpty st.cache cs = true →
        ∀ x ∈ A, Slab.isEmpty st.cache x = true :=
      fun hcse => EF_empty_mid st.cache A cs B hsegA hcse
    have hRfull : ∀ t ∈ R, t.full = true := by
      intro t ht
      apply hB
      rw [hBsplit]
      exact List.mem_append.mpr (Or.inr (List.mem_cons.mpr (Or.inr ht)))
    rcases List.eq_nil_or_concat B1 with rfl | ⟨B1', pv, hB1⟩
    · -- the prev neighbour is cs itself, which is not full: no requeue
      have hlast : (A ++ cs :: ([] : List Slab)).getLast? = some cs :=
        List.getLast?_concat _
      refine ⟨{ st with
                slabs := (A ++ cs :: []) ++ Slab.free1 st.cache s p :: R,
                curr := some (Slab.free1 st.cache s p).base },
              A ++ cs :: [], R, ?_, rfl, ?_, rfl, rfl, rfl⟩
      · simp only [State.free, hsplit, hsf, eq_self_iff_true, if_true, hlast,
                   hcsnf, Bool.false_eq_true, if_false]
      · obtain ⟨c1, c2, c3, c4, c5⟩ := free_core st live hInv p hp _ s R hsplit
          ((A ++ cs :: []) ++ Slab.free1 st.cache s p :: R) List.perm_middle
        refine ⟨hInv.wf, c1, c2, c3, c4, c5, ?_, ?_⟩
        · right
          refine ⟨A ++ cs :: [], Slab.free1 st.cache s p, R, rfl, rfl, hs2nf,
                  ?_, hRfull⟩
          intro a ha
          rcases List.mem_append.mp ha with h | h
          · exact hA a h
          · simp only [List.mem_cons, List.not_mem_nil, or_false] at h
            subst h; exact hcsnf
        · have hshape : (A ++ cs :: []) ++ Slab.free1 st.cache s p :: R =
              A ++ cs :: Slab.free1 st.cache s p :: R := by simp
          rw [hshape]
          exact EF_chunk st.cache A cs (Slab.free1 st.cache s p) R hEFA hcsA
            hs2cs (allNot_of_all_full st.cache hInv.wf R hRfull)
    · -- the prev neighbour pv is full: dequeue and splice in after cs
      rw [List.concat_eq_append] at hB1
      subst hB1
      have hshapeL : A ++ cs :: (B1' ++ [pv]) = (A ++ cs :: B1') ++ [pv] := by
        simp
      have hlast : (A ++ cs :: (B1' ++ [pv])).getLast? = some pv := by
        rw [hshapeL]; exact List.getLast?_concat _
      have hpvf : pv.full = true := hB pv
        (by rw [hBsplit]; exact List.mem_append.mpr (Or.inl (by simp)))
      have hfs2 : findSplit ((A ++ cs :: (B1' ++ [pv])) ++ R) cs.base =
          some (A, cs, (B1' ++ [pv]) ++ R) := by
        have hshape : (A ++ cs :: (B1' ++ [pv])) ++ R =
            A ++ cs :: ((B1' ++ [pv]) ++ R) := by simp
        rw [hshape]
        exact findSplit_app A cs _ cs.base hAnotcs rfl
      have hBfull : ∀ t ∈ (B1' ++ [pv]) ++ R, t.full = true := by
        intro t ht
        rcases List.mem_append.mp ht with h | h
        · exact hB t (by rw [hBsplit]; exact List.mem_append.mpr (Or.inl h))
        · exact hRfull t h
      cases hR2 : (B1' ++ [pv]) ++ R with
      | nil => exact absurd hR2 (by simp)
      | cons nx R3 =>
          have hallNx : ∀ t ∈ nx :: R3, t.full = true := by
            rw [← hR2]; exact hBfull
          refine ⟨{ st with
                    slabs := A ++ cs :: Slab.free1 st.cache s p :: nx :: R3,
                    curr := some (Slab.free1 st.cache s p).base },
                  A ++ cs :: [], nx :: R3, ?_, by simp, ?_, rfl, rfl, rfl⟩
          · simp only [State.free, hsplit, hsf, eq_self_iff_true, if_true,
                       hlast, hpvf, hcur, hfs2, hR2]
          · have hperm : (A ++ cs :: Slab.free1 st.cache s p :: nx :: R3).Perm
                (Slab.free1 st.cache s p :: ((A ++ cs :: (B1' ++ [pv])) ++ R)) := by
              have h1 : A ++ cs :: Slab.free1 st.cache s p :: nx :: R3 =
                  (A ++ cs :: []) ++ Slab.free1 st.cache s p :: (nx :: R3) := by
                simp
              have h2 : (A ++ cs :: (B1' ++ [pv])) ++ R =
                  (A ++ cs :: []) ++ (nx :: R3) := by
                rw [← hR2]; simp
              rw [h1, h2]
              exact List.perm_middle
            obtain ⟨c1, c2, c3, c4, c5⟩ := free_core st live hInv p hp _ s R
              hsplit _ hperm
            refine ⟨hInv.wf, c1, c2, c3, c4, c5, ?_, ?_⟩
            · right
              refine ⟨A ++ cs :: [], Slab.free1 st.cache s p, nx :: R3,
                      by simp, rfl, hs2nf, ?_, hallNx⟩
              intro a ha
              rcases List.mem_append.mp ha with h | h
              · exact hA a h
              · simp only [List.mem_cons, List.not_mem_nil, or_false] at h
                subst h; exact hcsnf
            · exact EF_chunk st.cache A cs (Slab.free1 st.cache s p) (nx :: R3)
                hEFA hcsA hs2cs (allNot_of_all_full st.cache hInv.wf _ hallNx)

theorem freeSpecNotFull (st : State) (live : List Nat) (hInv : CacheInv st live)
    (p : Nat) (hp : p ∈ live)
    (L : List Slab) (s : Slab) (R : List Slab)
    (hsplit : findSplit st.slabs (pageOf p) = some (L, s, R))
    (hsf : s.full = false) (hsne : s.avail < st.cache.elem) :
    ∃ st2 X Y, State.free st p = some st2 ∧
      st2.slabs = X ++ Slab.free1 st.cache s p :: Y ∧
      CacheInv st2 (live.erase p) ∧
      st2.cache = st.cache ∧ st2.nextPage = st.nextPage := by
  obtain ⟨hl, hsb, hLnot⟩ := findSplit_eq _ _ _ _ _ hsplit
  have hsmem := mem_slabs_of_split st L s R hl
  have helem : 0 < st.cache.elem := hInv.wf.1
  have hs2nf := free1_not_full st.cache s p
  have hsnemp : Slab.isEmpty st.cache s = false := by
    rw [slab_isEmpty_false_iff]; omega
  rcases hInv.ord with ⟨hcnone, hallfull⟩ | ⟨A, cs, B, hlA, hcur, hcsnf, hA, hB⟩
  · rw [hallfull s hsmem] at hsf; exact absurd hsf (by simp)
  have hloc : s ∈ A ∨ s = cs := by
    have hx := hsmem
    rw [hlA] at hx
    rcases List.mem_append.mp hx with h | h
    · exact Or.inl h
    · rcases List.mem_cons.mp h with h | h
      · exact Or.inr h
      · rw [hB s h] at hsf; exact absurd hsf (by simp)
  rcases hloc with hsA | rfl
  · -- the freed slab sits on the head side of the cursor
    obtain ⟨A1, A2, hAsplit⟩ := List.append_of_mem hsA
    have hlA2 : st.slabs = A1 ++ s :: (A2 ++ cs :: B) := by
      rw [hlA, hAsplit]; simp
    obtain ⟨hLeq, -, hReq⟩ := nodup_middle st.slabs hInv.basesNodup L s R
      A1 s (A2 ++ cs :: B) hl hlA2 rfl
    subst hLeq
    subst hReq
    have hsnotcs : s.base ≠ cs.base := by
      have := (bases_split st.slabs hInv.basesNodup A cs B hlA).1
      exact this s hsA
    have hA1sub : ∀ a ∈ L, a.full = false := by
      intro a ha; exact hA a (by rw [hAsplit]; exact List.mem_append.mpr (Or.inl ha))
    have hA2sub : ∀ a ∈ A2, a.full = false := by
      intro a ha
      exact hA a
        (by rw [hAsplit]; exact List.mem_append.mpr (Or.inr (List.mem_cons.mpr (Or.inr ha))))
    have hsegO : emptiesFirst st.cache (L ++ s :: (A2 ++ cs :: B)) = true := by
      rw [← hlA2]; exact hInv.seg
    by_cases hs2e : Slab.isEmpty st.cache (Slab.free1 st.cache s p) = true
    · rcases List.eq_nil_or_concat L with rfl | ⟨L1, pv, hL⟩
      · -- freed slab is the list head: no relink
        refine ⟨{ st with slabs :=
                    ([] : List Slab) ++ Slab.free1 st.cache s p :: (A2 ++ cs :: B) },
                [], A2 ++ cs :: B, ?_, rfl, ?_, rfl, rfl⟩
        · simp only [State.free, hsplit, hsf, Bool.false_eq_true, if_false,
                     hs2e, eq_self_iff_true, if_true, List.getLast?_nil]
        · obtain ⟨c1, c2, c3, c4, c5⟩ := free_core st live hInv p hp [] s _ hsplit
            (([] : List Slab) ++ Slab.free1 st.cache s p :: (A2 ++ cs :: B)) (by simp)
          refine ⟨hInv.wf, c1, c2, c3, c4, c5, ?_, ?_⟩
          · right
            refine ⟨Slab.free1 st.cache s p :: A2, cs, B, by simp, hcur, hcsnf, ?_, hB⟩
            intro a ha
            rcases List.mem_cons.mp ha with rfl | ha
            · exact hs2nf
            · exact hA2sub a ha
          · have hallR : allNotEmpty st.cache (A2 ++ cs :: B) = true := by
              have h1 : emptiesFirst st.cache (s :: (A2 ++ cs :: B)) = true := by
                simpa using hsegO
              rw [emptiesFirst_cons, hsnemp] at h1
              simpa using h1
            exact EF_cons_allNot st.cache _ _ hallR
      · -- freed slab has a head-side neighbour
        rw [List.concat_eq_append] at hL
        subst hL
        have hlast : (L1 ++ [pv]).getLast? = some pv := List.getLast?_concat _
        by_cases hpve : Slab.isEmpty st.cache pv = true
        · -- neighbour already empty: no relink
          refine ⟨{ st with slabs :=
                      (L1 ++ [pv]) ++ Slab.free1 st.cache s p :: (A2 ++ cs :: B) },
                  L1 ++ [pv], A2 ++ cs :: B, ?_, rfl, ?_, rfl, rfl⟩
          · simp only [State.free, hsplit, hsf, Bool.false_eq_true, if_false,
                       hs2e, eq_self_iff_true, if_true, hlast, hpve]
          · obtain ⟨c1, c2, c3, c4, c5⟩ := free_core st live hInv p hp _ s _ hsplit
              ((L1 ++ [pv]) ++ Slab.free1 st.cache s p :: (A2 ++ cs :: B))
              List.perm_middle
            refine ⟨hInv.wf, c1, c2, c3, c4, c5, ?_, ?_⟩
            · right
              refine ⟨(L1 ++ [pv]) ++ Slab.free1 st.cache s p :: A2, cs, B,
                      by simp, hcur, hcsnf, ?_, hB⟩
              intro a ha
              rcases List.mem_append.mp ha with h | h
              · exact hA1sub a h
              · rcases List.mem_cons.mp h with rfl | h
                · exact hs2nf
                · exact hA2sub a h
            · have hLemp : ∀ x ∈ L1 ++ [pv], Slab.isEmpty st.cache x = true :=
                EF_last_empty st.cache _ pv
                  (EF_append_left st.cache _ _ hsegO) hlast hpve
              have hallR : allNotEmpty st.cache (A2 ++ cs :: B) = true := by
                have h1 := EF_peel st.cache (L1 ++ [pv]) _ hLemp hsegO
                rw [emptiesFirst_cons, hsnemp] at h1
                simpa using h1
              have hshape : (L1 ++ [pv]) ++ Slab.free1 st.cache s p :: (A2 ++ cs :: B) =
                  ((L1 ++ [pv]) ++ [Slab.free1 st.cache s p]) ++ (A2 ++ cs :: B) := by
                simp
              rw [hshape]
              apply EF_parts
              · intro x hx
                rcases List.mem_append.mp hx with h | h
                · exact hLemp x h
                · simp only [List.mem_singleton] at h
                  subst h; exact hs2e
              · exact hallR
        · -- neighbour not empty: promote the now-empty slab to the head
          rw [Bool.not_eq_true] at hpve
          cases hLR : (L1 ++ [pv]) ++ (A2 ++ cs :: B) with
          | nil => exact absurd hLR (by simp)
          | cons hd tl =>
              refine ⟨{ st with slabs := Slab.free1 st.cache s p :: hd :: tl,
                                curr := st.curr },
                      [], hd :: tl, ?_, rfl, ?_, rfl, rfl⟩
              · have hne : ¬(st.curr = some s.base) := by
                  rw [hcur]
                  intro hx
                  exact hsnotcs (Option.some.inj hx).symm
                simp only [State.free, hsplit, hsf, Bool.false_eq_true, if_false,
                           hs2e, eq_self_iff_true, if_true, hlast, hpve, hLR,
                           if_neg hne]
              · obtain ⟨c1, c2, c3, c4, c5⟩ := free_core st live hInv p hp _ s _ hsplit
                  (Slab.free1 st.cache s p :: hd :: tl) (by rw [hLR])
                refine ⟨hInv.wf, c1, c2, c3, c4, c5, ?_, ?_⟩
                · right
                  refine ⟨Slab.free1 st.cache s p :: ((L1 ++ [pv]) ++ A2), cs, B,
                          ?_, hcur, hcsnf, ?_, hB⟩
                  · show Slab.free1 st.cache s p :: hd :: tl = _
                    rw [← hLR]
                    simp
                  · intro a ha
                    rcases List.mem_cons.mp ha with rfl | ha
                    · exact hs2nf
                    · rcases List.mem_append.mp ha with h | h
                      · exact hA1sub a h
                      · exact hA2sub a h
                · show emptiesFirst st.cache
                    (Slab.free1 st.cache s p :: hd :: tl) = true
                  rw [emptiesFirst_cons, hs2e]
                  simp only [if_true]
                  rw [← hLR]
                  exact EF_drop_mid st.cache _ s _ hsegO
    · -- the slab stays partial: no relink, cursor unchanged
      refine ⟨{ st with slabs := L ++ Slab.free1 st.cache s p :: (A2 ++ cs :: B) },
              L, A2 ++ cs :: B, ?_, rfl, ?_, rfl, rfl⟩
      · rw [Bool.not_eq_true] at hs2e
        simp only [State.free, hsplit, hsf, Bool.false_eq_true, if_false, hs2e]
      · obtain ⟨c1, c2, c3, c4, c5⟩ := free_core st live hInv p hp _ s _ hsplit
          (L ++ Slab.free1 st.cache s p :: (A2 ++ cs :: B)) List.perm_middle
        refine ⟨hInv.wf, c1, c2, c3, c4, c5, ?_, ?_⟩
        · right
          refine ⟨L ++ Slab.free1 st.cache s p :: A2, cs, B, by simp, hcur,
                  hcsnf, ?_, hB⟩
          intro a ha
          rcases List.mem_append.mp ha with h | h
          · exact hA1sub a h
          · rcases List.mem_cons.mp h with rfl | h
            · exact hs2nf
            · exact hA2sub a h
        · rw [Bool.not_eq_true] at hs2e
          exact EF_subst st.cache L s _ _ (by rw [hsnemp, hs2e]) hsegO
  · -- the freed slab is the current slab
    obtain ⟨hLeq, -, hReq⟩ := nodup_middle st.slabs hInv.basesNodup L s R
      A s B hl hlA rfl
    subst hLeq
    subst hReq
    have hsegO : emptiesFirst st.cache (L ++ s :: R) = true := by
      rw [← hl]; exact hInv.seg
    by_cases hs2e : Slab.isEmpty st.cache (Slab.free1 st.cache s p) = true
    · rcases List.eq_nil_or_concat L with rfl | ⟨L1, pv, hL⟩
      · -- current slab is the head: no relink
        refine ⟨{ st with slabs :=
                    ([] : List Slab) ++ Slab.free1 st.cache s p :: R },
                [], R, ?_, rfl, ?_, rfl, rfl⟩
        · simp only [State.free, hsplit, hsf, Bool.false_eq_true, if_false,
                     hs2e, eq_self_iff_true, if_true, List.getLast?_nil]
        · obtain ⟨c1, c2, c3, c4, c5⟩ := free_core st live hInv p hp [] s _ hsplit
            (([] : List Slab) ++ Slab.free1 st.cache s p :: R) (by simp)
          refine ⟨hInv.wf, c1, c2, c3, c4, c5, ?_, ?_⟩
          · right
            exact ⟨[], Slab.free1 st.cache s p, R, rfl, by rw [hcur]; rfl,
                   hs2nf, by simp, hB⟩
          · have hallR : allNotEmpty st.cache R = true := by
              have h1 : emptiesFirst st.cache (s :: R) = true := by
                simpa using hsegO
              rw [emptiesFirst_cons, hsnemp] at h1
              simpa using h1
            exact EF_cons_allNot st.cache _ _ hallR
      · rw [List.concat_eq_append] at hL
        subst hL
        have hlast : (L1 ++ [pv]).getLast? = some pv := List.getLast?_concat _
        by_cases hpve : Slab.isEmpty st.cache pv = true
        · -- head-side neighbour already empty: no relink
          refine ⟨{ st with slabs :=
                      (L1 ++ [pv]) ++ Slab.free1 st.cache s p :: R },
                  L1 ++ [pv], R, ?_, rfl, ?_, rfl, rfl⟩
          · simp only [State.free, hsplit, hsf, Bool.false_eq_true, if_false,
                       hs2e, eq_self_iff_true, if_true, hlast, hpve]
          · obtain ⟨c1, c2, c3, c4, c5⟩ := free_core st live hInv p hp _ s _ hsplit
              ((L1 ++ [pv]) ++ Slab.free1 st.cache s p :: R) List.perm_middle
            refine ⟨hInv.wf, c1, c2, c3, c4, c5, ?_, ?_⟩
            · right
              refine ⟨L1 ++ [pv], Slab.free1 st.cache s p, R, rfl,
                      by rw [hcur]; rfl, hs2nf, hA, hB⟩
            · have hLemp : ∀ x ∈ L1 ++ [pv], Slab.isEmpty st.cache x = true :=
                EF_last_empty st.cache _ pv
                  (EF_append_left st.cache _ _ hsegO) hlast hpve
              have hallR : allNotEmpty st.cache R = true := by
                have h1 := EF_peel st.cache (L1 ++ [pv]) _ hLemp hsegO
                rw [emptiesFirst_cons, hsnemp] at h1
                simpa using h1
              have hshape : (L1 ++ [pv]) ++ Slab.free1 st.cache s p :: R =
                  ((L1 ++ [pv]) ++ [Slab.free1 st.cache s p]) ++ R := by simp
              rw [hshape]
              apply EF_parts
              · intro x hx
                rcases List.mem_append.mp hx with h | h
                · exact hLemp x h
                · simp only [List.mem_singleton] at h
                  subst h; exact hs2e
              · exact hallR
        · -- promote to head, cursor moves to the head-side neighbour
          rw [Bool.not_eq_true] at hpve
          cases hLR : (L1 ++ [pv]) ++ R with
          | nil => exact absurd hLR (by simp)
          | cons hd tl =>
              refine ⟨{ st with slabs := Slab.free1 st.cache s p :: hd :: tl,
                                curr := some pv.base },
                      [], hd :: tl, ?_, rfl, ?_, rfl, rfl⟩
              · have heq : st.curr = some s.base := hcur
                simp only [State.free, hsplit, hsf, Bool.false_eq_true, if_false,
                           hs2e, eq_self_iff_true, if_true, hlast, hpve, hLR,
                           if_pos heq, Option.map_some']
              · obtain ⟨c1, c2, c3, c4, c5⟩ := free_core st live hInv p hp _ s _ hsplit
                  (Slab.free1 st.cache s p :: hd :: tl) (by rw [hLR])
                refine ⟨hInv.wf, c1, c2, c3, c4, c5, ?_, ?_⟩
                · right
                  refine ⟨Slab.free1 st.cache s p :: L1, pv, R, ?_, rfl, ?_, ?_, hB⟩
                  · show Slab.free1 st.cache s p :: hd :: tl = _
                    rw [← hLR]
                    simp
                  · exact hA pv (by simp)
                  · intro a ha
                    rcases List.mem_cons.mp ha with rfl | ha
                    · exact hs2nf
                    · exact hA a (by simp [ha])
                · show emptiesFirst st.cache
                    (Slab.free1 st.cache s p :: hd :: tl) = true
                  rw [emptiesFirst_cons, hs2e]
                  simp only [if_true]
                  rw [← hLR]
                  exact EF_drop_mid st.cache _ s _ hsegO
    · -- the slab stays partial: no relink, cursor unchanged
      refine ⟨{ st with slabs := L ++ Slab.free1 st.cache s p :: R },
              L, R, ?_, rfl, ?_, rfl, rfl⟩
      · rw [Bool.not_eq_true] at hs2e
        simp only [State.free, hsplit, hsf, Bool.false_eq_true, if_false, hs2e]
      · obtain ⟨c1, c2, c3, c4, c5⟩ := free_core st live hInv p hp _ s _ hsplit
          (L ++ Slab.free1 st.cache s p :: R) List.perm_middle
        refine ⟨hInv.wf, c1, c2, c3, c4, c5, ?_, ?_⟩
        · right
          exact ⟨L, Slab.free1 st.cache s p, R, rfl, by rw [hcur]; rfl,
                 hs2nf, hA, hB⟩
        · rw [Bool.not_eq_true] at hs2e
          exact EF_subst st.cache L s _ R (by rw [hsnemp, hs2e]) hsegO

theorem freeSpec (st : State) (live : List Nat) (hInv : CacheInv st live)
    (p : Nat) (hp : p ∈ live) :
    ∃ st2, State.free st p = some st2 ∧ CacheInv st2 (live.erase p) ∧
      st2.cache = st.cache ∧ st2.nextPage = st.nextPage ∧
      ∃ L s R X Y, findSplit st.slabs (pageOf p) = some (L, s, R) ∧
        st2.slabs = X ++ Slab.free1 st.cache s p :: Y ∧
        (s.full = true → st2.curr = some s.base) := by
  obtain ⟨L, s, R, hsplit, hl, hsb, hlt⟩ := free_pre st live hInv p hp
  cases hsf : s.full with
  | true =>
      obtain ⟨st2, X, Y, h1, h2, h3, h4, h5, h6⟩ :=
        freeSpecFull st live hInv p hp L s R hsplit hsf
      exact ⟨st2, h1, h3, h4, h5, L, s, R, X, Y, hsplit, h2, fun _ => h6⟩
  | false =>
      obtain ⟨st2, X, Y, h1, h2, h3, h4, h5⟩ :=
        freeSpecNotFull st live hInv p hp L s R hsplit hsf hlt
      exact ⟨st2, h1, h3, h4, h5, L, s, R, X, Y, hsplit, h2,
             fun h => absurd h (by rw [hsf]; simp)⟩

theorem stepInv (sl sl2 : State × List Nat) (op : Op)
    (hInv : CacheInv sl.1 sl.2) (hstep : step sl op = some sl2) :
    CacheInv sl2.1 sl2.2 ∧ sl2.1.cache = sl.1.cache ∧
      (∃ q, sl2.2 = q :: sl.2) ∨
    CacheInv sl2.1 sl2.2 ∧ sl2.1.cache = sl.1.cache ∧
      (∃ q, q ∈ sl.2 ∧ sl2.2 = sl.2.erase q) := by
  cases op with
  | alloc =>
      obtain ⟨st2, ret, h1, h2, h3, -⟩ := allocSpec sl.1 sl.2 hInv
      rw [step, h1] at hstep
      simp only [Option.some.injEq] at hstep
      rw [← hstep]
      exact Or.inl ⟨h2, h3, ret, rfl⟩
  | free p =>
      rw [step] at hstep
      by_cases hp : p ∈ sl.2
      · obtain ⟨st2, h1, h2, h3, -⟩ := freeSpec sl.1 sl.2 hInv p hp
        rw [if_pos hp, h1] at hstep
        simp only [Option.some.injEq] at hstep
        rw [← hstep]
        exact Or.inr ⟨h2, h3, p, hp, rfl⟩
      · rw [if_neg hp] at hstep
        exact absurd hstep (by simp)

theorem stepInvSimple (sl sl2 : State × List Nat) (op : Op)
    (hInv : CacheInv sl.1 sl.2) (hstep : step sl op = some sl2) :
    CacheInv sl2.1 sl2.2 ∧ sl2.1.cache = sl.1.cache := by
  rcases stepInv sl sl2 op hInv hstep with ⟨h1, h2, -⟩ | ⟨h1, h2, -⟩
  · exact ⟨h1, h2⟩
  · exact ⟨h1, h2⟩

theorem runAuxInv (ops : List Op) : ∀ (sl sl2 : State × List Nat),
    runAux sl ops = some sl2 → CacheInv sl.1 sl.2 →
    CacheInv sl2.1 sl2.2 ∧ sl2.1.cache = sl.1.cache := by
  induction ops with
  | nil =>
      intro sl sl2 h hInv
      rw [runAux] at h
      simp only [Option.some.injEq] at h
      rw [← h]
      exact ⟨hInv, rfl⟩
  | cons op rest ih =>
      intro sl sl2 h hInv
      rw [runAux] at h
      cases hstep : step sl op with
      | none => rw [hstep] at h; exact absurd h (by simp)
      | some slm =>
          rw [hstep] at h
          obtain ⟨hi, hcq⟩ := stepInvSimple sl slm op hInv hstep
          obtain ⟨hi2, hcq2⟩ := ih slm sl2 h hi
          exact ⟨hi2, by rw [hcq2, hcq]⟩

theorem initInv (c : Slab_cache) (hc : c.wf) :
    CacheInv (State.init c) [] := by
  refine ⟨hc, by simp [State.init], by simp [State.init], by simp [State.init],
          by simp, by simp, ?_, by simp [State.init]; rfl⟩
  left
  exact ⟨rfl, by simp [State.init]⟩

theorem mainInv (c : Slab_cache) (hc : c.wf) (ops : List Op)
    (st : State) (live : List Nat) (hrun : run c ops = some (st, live)) :
    CacheInv st live :=
  (runAuxInv ops (State.init c, []) (st, live) hrun (initInv c hc)).1

theorem run_cache (c : Slab_cache) (hc : c.wf) (ops : List Op) (st : State)
    (live : List Nat) (hrun : run c ops = some (st, live)) : st.cache = c :=
  (runAuxInv ops (State.init c, []) (st, live) hrun (initInv c hc)).2

theorem step_live (sl sl2 : State × List Nat) (op : Op)
    (h : step sl op = some sl2) :
    (∃ q, sl2.2 = q :: sl.2) ∨ (∃ q, q ∈ sl.2 ∧ sl2.2 = sl.2.erase q) := by
  cases op with
  | alloc =>
      rw [step] at h
      cases ha : sl.1.alloc with
      | none => rw [ha] at h; exact absurd h (by simp)
      | some pr =>
          rw [ha] at h
          simp only [Option.some.injEq] at h
          exact Or.inl ⟨pr.2, by rw [← h]⟩
  | free p =>
      rw [step] at h
      by_cases hp : p ∈ sl.2
      · rw [if_pos hp] at h
        cases hf : sl.1.free p with
        | none => rw [hf] at h; exact absurd h (by simp)
        | some stf =>
            rw [hf] at h
            simp only [Option.some.injEq] at h
            exact Or.inr ⟨p, hp, by rw [← h]⟩
      · rw [if_neg hp] at h
        exact absurd h (by simp)

theorem step_op_alloc (sl sl2 : State × List Nat)
    (h : step sl Op.alloc = some sl2) : ∃ q, sl2.2 = q :: sl.2 := by
  rcases step_live sl sl2 Op.alloc h with h1 | h1
  · exact h1
  · rw [step] at h
    cases ha : sl.1.alloc with
    | none => rw [ha] at h; exact absurd h (by simp)
    | some pr =>
        rw [ha] at h
        simp only [Option.some.injEq] at h
        exact ⟨pr.2, by rw [← h]⟩

theorem step_op_free (sl sl2 : State × List Nat) (p : Nat)
    (h : step sl (Op.free p) = some sl2) :
    p ∈ sl.2 ∧ sl2.2 = sl.2.erase p := by
  rw [step] at h
  by_cases hp : p ∈ sl.2
  · rw [if_pos hp] at h
    cases hf : sl.1.free p with
    | none => rw [hf] at h; exact absurd h (by simp)
    | some stf =>
        rw [hf] at h
        simp only [Option.some.injEq] at h
        exact ⟨hp, by rw [← h]⟩
  · rw [if_neg hp] at h
    exact absurd h (by simp)

theorem countAllocs_cons_alloc (rest : List Op) :
    countAllocs (Op.alloc :: rest) = countAllocs rest + 1 := by
  simp [countAllocs, List.filter_cons]

theorem countAllocs_cons_free (p : Nat) (rest : List Op) :
    countAllocs (Op.free p :: rest) = countAllocs rest := by
  simp [countAllocs, List.filter_cons]

theorem countFrees_cons_alloc (rest : List Op) :
    countFrees (Op.alloc :: rest) = countFrees rest := by
  simp [countFrees, List.filter_cons]

theorem countFrees_cons_free (p : Nat) (rest : List Op) :
    countFrees (Op.free p :: rest) = countFrees rest + 1 := by
  simp [countFrees, List.filter_cons]

theorem run_count (ops : List Op) : ∀ (sl sl2 : State × List Nat),
    runAux sl ops = some sl2 →
    sl2.2.length + countFrees ops = sl.2.length + countAllocs ops ∧
    countFrees ops ≤ sl.2.length + countAllocs ops := by
  induction ops with
  | nil =>
      intro sl sl2 h
      rw [runAux] at h
      simp only [Option.some.injEq] at h
      rw [← h]
      simp [countAllocs, countFrees]
  | cons op rest ih =>
      intro sl sl2 h
      rw [runAux] at h
      cases hstep : step sl op with
      | none => rw [hstep] at h; exact absurd h (by simp)
      | some slm =>
          rw [hstep] at h
          obtain ⟨ih1, ih2⟩ := ih slm sl2 h
          cases op with
          | alloc =>
              rw [countAllocs_cons_alloc, countFrees_cons_alloc]
              obtain ⟨q, hq⟩ := step_op_alloc sl slm hstep
              rw [hq] at ih1 ih2
              simp only [List.length_cons] at ih1 ih2
              omega
          | free p =>
              rw [countAllocs_cons_free, countFrees_cons_free]
              obtain ⟨hp, hq⟩ := step_op_free sl slm p hstep
              rw [hq] at ih1 ih2
              rw [List.length_erase_of_mem hp] at ih1 ih2
              have hpos : 0 < sl.2.length := List.length_pos.mpr
                (List.ne_nil_of_mem hp)
              omega

theorem sum_map_add (L : List Slab) (f g : Slab → Nat) :
    (L.map (fun s => f s + g s)).sum = (L.map f).sum + (L.map g).sum := by
  induction L with
  | nil => simp
  | cons s tl ih => simp [ih]; omega

theorem sum_ite_count (L : List Slab) (b : Nat) :
    (L.map (fun s => if b = s.base then 1 else 0)).sum =
      (L.map Slab.base).count b := by
  induction L with
  | nil => simp
  | cons s tl ih =>
      simp only [List.map_cons, List.sum_cons, List.count_cons, ih]
      by_cases hb : b = s.base
      · subst hb
        simp only [if_pos rfl, beq_self_eq_true, if_true]
        omega
      · have hsb : (s.base == b) = false :=
          beq_eq_false_iff_ne.mpr (Ne.symm hb)
        rw [if_neg hb, hsb]
        simp only [Bool.false_eq_true, if_false]
        omega

theorem count_partition (slabs : List Slab) (live : List Nat)
    (h1 : ∀ p ∈ live, pageOf p ∈ slabs.map Slab.base)
    (hnd : (slabs.map Slab.base).Nodup) :
    (slabs.map (fun s =>
      (live.filter (fun p => pageOf p == s.base)).length)).sum = live.length := by
  induction live with
  | nil => simp
  | cons p rest ih =>
      have hsplit : ∀ s : Slab,
          ((p :: rest).filter (fun q => pageOf q == s.base)).length =
          (if pageOf p = s.base then 1 else 0) +
            (rest.filter (fun q => pageOf q == s.base)).length := by
        intro s
        rw [List.filter_cons]
        by_cases hb : pageOf p = s.base
        · simp only [hb, beq_self_eq_true, if_true, List.length_cons]
          omega
        · have hsb : (pageOf p == s.base) = false := beq_eq_false_iff_ne.mpr hb
          rw [hsb, if_neg hb]
          simp
      have hmap : slabs.map (fun s =>
          ((p :: rest).filter (fun q => pageOf q == s.base)).length) =
          slabs.map (fun s => (if pageOf p = s.base then 1 else 0) +
            (rest.filter (fun q => pageOf q == s.base)).length) := by
        apply List.map_congr_left
        intro s _
        exact hsplit s
      rw [hmap, sum_map_add, sum_ite_count,
          ih (fun q hq => h1 q (by simp [hq]))]
      have hcount : (slabs.map Slab.base).count (pageOf p) = 1 :=
        List.count_eq_one_of_mem hnd (h1 p (by simp))
      rw [hcount]
      simp only [List.length_cons]
      omega

theorem sum_outstanding_eq (st : State) (live : List Nat)
    (hInv : CacheInv st live) : sumOutstanding st = live.length := by
  rw [sumOutstanding]
  have hmap : st.slabs.map (fun s => st.cache.elem - s.avail) =
      st.slabs.map (fun s =>
        (live.filter (fun p => pageOf p == s.base)).length) := by
    apply List.map_congr_left
    intro s hs
    obtain ⟨ha1, ha2⟩ := hInv.acc s hs
    have hlen := acc_avail_le st.cache s live ha1 ha2
    have : (liveLinksOf st.cache s.base live).length =
        (live.filter (fun p => pageOf p == s.base)).length := by
      rw [liveLinksOf, List.length_map]
    omega
  rw [hmap]
  exact count_partition st.slabs live hInv.owned hInv.basesNodup

theorem mk0_length (c : Slab_cache) (b : Nat) :
    (Slab.mk0 c b).freeList.length = c.elem := by
  rw [Slab.mk0, buildFree_eq]
  simp

theorem allocIter_run (c : Slab_cache) : ∀ (n : Nat) (s : Slab),
    n ≤ s.freeList.length →
    ∃ s', allocIter c n s = some s' ∧ s'.avail = s.avail - n ∧
      s'.freeList.length = s.freeList.length - n := by
  intro n
  induction n with
  | zero => intro s h; exact ⟨s, rfl, by omega, by omega⟩
  | succ m ih =>
      intro s h
      cases hfl : s.freeList with
      | nil => rw [hfl] at h; simp at h
      | cons link rest =>
          have hred : allocIter c (m + 1) s =
              allocIter c m { s with avail := s.avail - 1, freeList := rest } := by
            rw [allocIter]
            simp only [Slab.alloc1, hfl]
          obtain ⟨s', h1, h2, h3⟩ :=
            ih { s with avail := s.avail - 1, freeList := rest }
              (by rw [hfl] at h; simpa using Nat.le_of_succ_le_succ h)
          have e2 : ({ s with avail := s.avail - 1, freeList := rest } : Slab).avail
              = s.avail - 1 := rfl
          have e3 : ({ s with avail := s.avail - 1, freeList := rest } : Slab).freeList
              = rest := rfl
          rw [e2] at h2
          rw [e3] at h3
          have hlen : (link :: rest).length = rest.length + 1 := rfl
          refine ⟨s', by rw [hred, h1], by omega, by omega⟩

theorem align_up_spec (v a : Nat) (ha : 0 < a) :
    v ≤ align_up v a ∧ align_up v a % a = 0 ∧
      ∀ y, v ≤ y → y % a = 0 → align_up v a ≤ y := by
  refine ⟨?_, ?_, ?_⟩
  · rw [align_up]
    have h1 : (v + a - 1) % a + (v + a - 1) / a * a = v + a - 1 :=
      Nat.mod_add_div' _ _
    have h2 : (v + a - 1) % a < a := Nat.mod_lt _ ha
    omega
  · rw [align_up]
    exact Nat.mul_mod_left _ _
  · intro y hy hm
    rw [align_up]
    obtain ⟨m, rfl⟩ : ∃ m, y = m * a := by
      refine ⟨y / a, ?_⟩
      have h0 := Nat.mod_add_div' y a
      omega
    have h3 : (v + a - 1) / a ≤ (m * a + (a - 1)) / a := by
      apply Nat.div_le_div_right
      omega
    have h4 : (m * a + (a - 1)) / a = (a - 1) / a + m := by
      rw [Nat.add_comm (m * a), Nat.add_mul_div_right _ _ ha]
    have h5 : (a - 1) / a = 0 := Nat.div_eq_of_lt (by omega)
    have h6 : (v + a - 1) / a ≤ m := by omega
    exact Nat.mul_le_mul_right a h6

theorem free_nextPage (st : State) (q : Nat) (st3 : State)
    (h : State.free st q = some st3) : st3.nextPage = st.nextPage := by
  rw [State.free] at h
  cases hfs : findSplit st.slabs (pageOf q) with
  | none => rw [hfs] at h; exact absurd h (by simp)
  | some LtR =>
      obtain ⟨L, s, R⟩ := LtR
      rw [hfs] at h
      simp only [] at h
      repeat' split at h
      all_goals
        first
        | (simp only [Option.some.injEq] at h; rw [← h])
        | exact absurd h (by simp)

/-- Claim C1, amended: after every allocate and release call completes, if
`curr` is non-null then the slab it designates is not FULL, and if `curr`
has a tail-side neighbour (its successor `curr->next`, away from the list
head), that neighbour is FULL.  (The head-side neighbour `curr->prev` is in
fact never FULL; slab.cpp line 95 asserts `!curr->next || curr->next->full()`.) -/
theorem c1_cursor_invariant (c : Slab_cache) (hc : c.wf) (ops : List Op)
    (st : State) (live : List Nat) (hrun : run c ops = some (st, live)) :
    ∀ cb, st.curr = some cb →
      ∃ L s R, findSplit st.slabs cb = some (L, s, R) ∧ s.full = false ∧
        ∀ nx, R.head? = some nx → nx.full = true := by
  intro cb hcb
  have hInv := mainInv c hc ops st live hrun
  rcases hInv.ord with ⟨h0, -⟩ | ⟨A, s, B, hl, hcur, hnf, hA, hB⟩
  · rw [hcb] at h0; exact absurd h0 (by simp)
  · rw [hcb] at hcur
    obtain rfl : cb = s.base := Option.some.inj hcur
    refine ⟨A, s, B, ?_, hnf, ?_⟩
    · rw [hl]
      exact findSplit_app A s B s.base
        (bases_split st.slabs hInv.basesNodup A s B hl).1 rfl
    · intro nx hnx
      cases B with
      | nil => simp at hnx
      | cons b0 tl =>
          simp only [List.head?_cons, Option.some.injEq] at hnx
          rw [← hnx]
          exact hB b0 (List.mem_cons_self _ _)

/-- Claim C1, counterexample: on the cache with element size 2016 and
alignment 8 (two buffers per slab), after the call sequence
allocate, allocate, allocate, release 48 the cursor designates the slab at
base 0 whose head-side neighbour (`curr->prev`, the slab at base 4096) is
not FULL — refuting the claim that the head-side neighbour of `curr` is
always FULL. -/
theorem c1_headside_counterexample :
    ∃ st live L s R pv,
      run cacheW [Op.alloc, Op.alloc, Op.alloc, Op.free 48] = some (st, live) ∧
      st.curr = some s.base ∧
      findSplit st.slabs s.base = some (L, s, R) ∧
      L.getLast? = some pv ∧ pv.full = false := by
  refine ⟨{ cache := cacheW,
            slabs := [⟨4096, 1, [8184]⟩, ⟨0, 1, [2064]⟩],
            curr := some 0, nextPage := 2 },
          [4144, 2072], [⟨4096, 1, [8184]⟩], ⟨0, 1, [2064]⟩, [],
          ⟨4096, 1, [8184]⟩, ?_, rfl, rfl, rfl, rfl⟩
  rfl

/-- Claim C1, witness: the amended cursor invariant instantiated after one
allocation on a concrete cache. -/
theorem c1_witness :
    cacheW.wf ∧ ∃ st live, run cacheW [Op.alloc] = some (st, live) ∧
      ∀ cb, st.curr = some cb →
        ∃ L s R, findSplit st.slabs cb = some (L, s, R) ∧ s.full = false ∧
          ∀ nx, R.head? = some nx → nx.full = true :=
  ⟨by decide, _, _, rfl,
   c1_cursor_invariant cacheW (by decide) [Op.alloc] _ _ rfl⟩

/-- Claim C4: in every reachable state the EMPTY slabs form a contiguous
run at the front (head side) of the cache's slab list, so no FULL slab
ever sits ahead of an EMPTY one. -/
theorem c4_empty_segregation (c : Slab_cache) (hc : c.wf) (ops : List Op)
    (st : State) (live : List Nat) (hrun : run c ops = some (st, live)) :
    emptiesFirst st.cache st.slabs = true :=
  (mainInv c hc ops st live hrun).seg

/-- Claim C4, witness: the empty-slab segregation instantiated on a
concrete trace that empties the first slab of two. -/
theorem c4_witness :
    cacheW.wf ∧ ∃ st live,
      run cacheW [Op.alloc, Op.alloc, Op.alloc, Op.free 48, Op.free 2072]
        = some (st, live) ∧
      emptiesFirst st.cache st.slabs = true :=
  ⟨by decide, _, _, rfl,
   c4_empty_segregation cacheW (by decide)
     [Op.alloc, Op.alloc, Op.alloc, Op.free 48, Op.free 2072] _ _ rfl⟩

/-- Claim C9: in every state reachable by a valid allocate/release sequence
the live (allocated and not yet released) pointers are pairwise distinct. -/
theorem c9_live_distinct (c : Slab_cache) (hc : c.wf) (ops : List Op)
    (st : State) (live : List Nat) (hrun : run c ops = some (st, live)) :
    live.Nodup :=
  (mainInv c hc ops st live hrun).liveND

/-- Claim C9, witness: distinctness of live pointers after three
allocations on a concrete cache. -/
theorem c9_witness :
    cacheW.wf ∧ ∃ st live,
      run cacheW [Op.alloc, Op.alloc, Op.alloc] = some (st, live) ∧
      live.Nodup :=
  ⟨by decide, _, _, rfl, c9_live_distinct cacheW (by decide) [Op.alloc, Op.alloc, Op.alloc] _ _ rfl⟩

/-- Claim C10: in every reachable state, releasing any live pointer
succeeds — none of the pointer dereferences performed by
`Slab_cache::free` during list reordering (lines 130, 137 and 160 of
slab.cpp, modelled as guards returning `none`) ever hits null. -/
theorem c10_release_total (c : Slab_cache) (hc : c.wf) (ops : List Op)
    (st : State) (live : List Nat) (hrun : run c ops = some (st, live)) :
    ∀ p ∈ live, (State.free st p).isSome = true := by
  intro p hp
  obtain ⟨st2, h1, -⟩ := freeSpec st live (mainInv c hc ops st live hrun) p hp
  rw [h1]
  rfl

/-- Claim C10, witness: releasing a live pointer out of a full slab
succeeds on a concrete cache. -/
theorem c10_witness :
    cacheW.wf ∧ ∃ st live,
      run cacheW [Op.alloc, Op.alloc, Op.alloc] = some (st, live) ∧
      (48 : Nat) ∈ live ∧ (State.free st 48).isSome = true := by
  refine ⟨by decide, _, _, rfl, by decide, ?_⟩
  exact c10_release_total cacheW (by decide) [Op.alloc, Op.alloc, Op.alloc]
    _ _ rfl 48 (by decide)

/-- Claim C5: every live pointer lies inside the page-sized region of the
slab that allocated it, so masking it down to its page base (as
`Slab_cache::free` does at slab.cpp line 110) recovers exactly the owning
slab, whose buffer set contains the pointer's link field. -/
theorem c5_owner_recovery (c : Slab_cache) (hc : c.wf) (ops : List Op)
    (st : State) (live : List Nat) (hrun : run c ops = some (st, live)) :
    ∀ p ∈ live, ∃ L s R, findSplit st.slabs (pageOf p) = some (L, s, R) ∧
      s.base ≤ p ∧ p < s.base + PAGE_SIZE ∧ pageOf p = s.base ∧
      p + st.cache.size ∈ slabLinks st.cache s.base := by
  intro p hp
  have hInv := mainInv c hc ops st live hrun
  obtain ⟨L, s, R, hsplit, hl, hsb, -⟩ := free_pre st live hInv p hp
  obtain ⟨ha1, ha2⟩ := hInv.acc s (mem_slabs_of_split st L s R hl)
  have hmm : p + st.cache.size ∈ liveLinksOf st.cache s.base live :=
    ll_mem _ _ _ _ hp hsb.symm
  have hlinks : p + st.cache.size ∈ slabLinks st.cache s.base :=
    ha2.mem_iff.mp (List.mem_append.mpr (Or.inr hmm))
  obtain ⟨hadd, hlo, hhi⟩ := link_sub_add st.cache hInv.wf s.base _ hlinks
  have hps : p + st.cache.size - st.cache.size = p := by omega
  rw [hps] at hlo hhi
  exact ⟨L, s, R, hsplit, hlo, hhi, hsb.symm, hlinks⟩

/-- Claim C5, witness: owner recovery for the pointer 48 allocated out of
the slab at base 0 of a concrete cache. -/
theorem c5_witness :
    cacheW.wf ∧ ∃ st live, run cacheW [Op.alloc] = some (st, live) ∧
      ∀ p ∈ live, ∃ L s R, findSplit st.slabs (pageOf p) = some (L, s, R) ∧
        s.base ≤ p ∧ p < s.base + PAGE_SIZE ∧ pageOf p = s.base ∧
        p + st.cache.size ∈ slabLinks st.cache s.base :=
  ⟨by decide, _, _, rfl, c5_owner_recovery cacheW (by decide) [Op.alloc] _ _ rfl⟩

/-- Claim C2: at every point of a valid allocate/release sequence the sum
over the cache's slabs of (capacity − free count) equals the number of
allocate calls minus the number of release calls so far (and the latter
never exceeds the former). -/
theorem c2_conservation (c : Slab_cache) (hc : c.wf) (ops : List Op)
    (st : State) (live : List Nat) (hrun : run c ops = some (st, live)) :
    countFrees ops ≤ countAllocs ops ∧
    sumOutstanding st = countAllocs ops - countFrees ops := by
  have hInv := mainInv c hc ops st live hrun
  obtain ⟨h1, h2⟩ := run_count ops (State.init c, []) (st, live) hrun
  have h3 := sum_outstanding_eq st live hInv
  simp only [List.length_nil] at h1 h2
  constructor
  · omega
  · omega

/-- Claim C2, witness: conservation after three allocations and one
release on a concrete cache. -/
theorem c2_witness :
    cacheW.wf ∧ ∃ st live,
      run cacheW [Op.alloc, Op.alloc, Op.alloc, Op.free 48] = some (st, live) ∧
      (countFrees [Op.alloc, Op.alloc, Op.alloc, Op.free 48] ≤
        countAllocs [Op.alloc, Op.alloc, Op.alloc, Op.free 48] ∧
      sumOutstanding st =
        countAllocs [Op.alloc, Op.alloc, Op.alloc, Op.free 48] -
          countFrees [Op.alloc, Op.alloc, Op.alloc, Op.free 48]) :=
  ⟨by decide, _, _, rfl, c2_conservation cacheW (by decide)
     [Op.alloc, Op.alloc, Op.alloc, Op.free 48] _ _ rfl⟩

/-- Claim C3, amended: for a pointer `p` returned by allocate and still
live, after a single release of `p` the very next allocate call returns
exactly `p` provided the cursor then designates the slab owning `p` — in
particular whenever that slab was FULL before the release.  (Without this
proviso the claim fails: the release may leave the cursor on a different
slab, and the next allocation is served from there.) -/
theorem c3_lifo_reuse (c : Slab_cache) (hc : c.wf) (ops : List Op)
    (st : State) (live : List Nat) (hrun : run c ops = some (st, live))
    (p : Nat) (hp : p ∈ live) (st2 : State)
    (hfree : State.free st p = some st2)
    (hcurr : st2.curr = some (pageOf p)) :
    ∃ st3, State.alloc st2 = some (st3, p) := by
  have hInv := mainInv c hc ops st live hrun
  obtain ⟨st2', h1, h2, h3, h4, L, s, R, X, Y, hsplit, hdecomp, -⟩ :=
    freeSpec st live hInv p hp
  rw [h1] at hfree
  obtain rfl : st2' = st2 := Option.some.inj hfree
  obtain ⟨hl, hsb, -⟩ := findSplit_eq _ _ _ _ _ hsplit
  have hs2base : (Slab.free1 st.cache s p).base = pageOf p := by
    rw [free1_base, hsb]
  have hfs2 : findSplit st2'.slabs (pageOf p) =
      some (X, Slab.free1 st.cache s p, Y) := by
    rw [hdecomp]
    apply findSplit_app
    · intro x hx
      have hnot := (bases_split st2'.slabs h2.basesNodup X _ Y hdecomp).1 x hx
      rw [hs2base] at hnot
      exact hnot
    · exact hs2base
  simp only [State.alloc, hcurr, hfs2, Slab.alloc1, free1_freeList, h3]
  rw [Nat.add_sub_cancel]
  exact ⟨_, rfl⟩

/-- Claim C3, counterexample: on the cache with two buffers per slab, after
allocate (48), allocate (2072), allocate (4144), release 48, release 4144
— a single release of 4144 with no allocation intervening — the very next
allocate returns 48, not the just-released 4144: the released slab did not
become the cursor, so the strict next-allocation LIFO claim fails. -/
theorem c3_lifo_counterexample :
    ∃ st live st3 r,
      run cacheW [Op.alloc, Op.alloc, Op.alloc, Op.free 48, Op.free 4144]
        = some (st, live) ∧
      State.alloc st = some (st3, r) ∧ r = 48 ∧ r ≠ 4144 := by
  refine ⟨{ cache := cacheW,
            slabs := [⟨4096, 2, [6160, 8184]⟩, ⟨0, 1, [2064]⟩],
            curr := some 0, nextPage := 2 },
          [2072],
          { cache := cacheW,
            slabs := [⟨4096, 2, [6160, 8184]⟩, ⟨0, 0, []⟩],
            curr := some 4096, nextPage := 2 },
          48, ?_, ?_, rfl, by decide⟩
  · rfl
  · rfl

/-- Claim C3, witness: the amended LIFO-reuse property at a concrete
trace: releasing 48 back into its full slab makes that slab current, and
the next allocation returns 48. -/
theorem c3_witness :
    cacheW.wf ∧ ∃ st live st2,
      run cacheW [Op.alloc, Op.alloc, Op.alloc] = some (st, live) ∧
      (48 : Nat) ∈ live ∧ State.free st 48 = some st2 ∧
      st2.curr = some (pageOf 48) ∧
      ∃ st3, State.alloc st2 = some (st3, 48) := by
  refine ⟨by decide, _, _, _, rfl, by decide, rfl, rfl, ?_⟩
  exact c3_lifo_reuse cacheW (by decide) [Op.alloc, Op.alloc, Op.alloc]
    _ _ rfl 48 (by decide) _ rfl rfl

/-- Claim C6: a freshly constructed slab has free count equal to the
per-slab capacity (it is EMPTY); after capacity-many successive
allocations with no releases its free count is 0 (it is FULL) and a
further allocation attempt faults (violates the `free_count > 0`
precondition). -/
theorem c6_capacity (c : Slab_cache) (b : Nat) :
    (Slab.mk0 c b).avail = c.elem ∧
    Slab.isEmpty c (Slab.mk0 c b) = true ∧
    ∃ s, allocIter c c.elem (Slab.mk0 c b) = some s ∧ s.avail = 0 ∧
      s.full = true ∧ Slab.alloc1 c s = none := by
  refine ⟨rfl, (slab_isEmpty_iff c _).mpr rfl, ?_⟩
  obtain ⟨s', h1, h2, h3⟩ :=
    allocIter_run c c.elem (Slab.mk0 c b) (by rw [mk0_length])
  have hav : (Slab.mk0 c b).avail = c.elem := rfl
  rw [hav] at h2
  rw [mk0_length] at h3
  have hfl0 : s'.freeList = [] := List.length_eq_zero.mp (by omega)
  refine ⟨s', h1, by omega, ?_, ?_⟩
  · rw [full_iff]; omega
  · simp only [Slab.alloc1, hfl0]

/-- Claim C7: in every reachable state, allocate requests new backing
memory (a fresh page via grow, prepended as the new head with the old head
as its successor) exactly when `curr` is null at entry; otherwise no page
is requested and the slab list keeps the same bases; allocate has no other
failure path, and release never requests memory. -/
theorem c7_grow_iff (c : Slab_cache) (hc : c.wf) (ops : List Op)
    (st : State) (live : List Nat) (hrun : run c ops = some (st, live)) :
    ∃ st2 ret, State.alloc st = some (st2, ret) ∧
      (st2.nextPage = st.nextPage + 1 ↔ st.curr = none) ∧
      (st.curr = none → st2.slabs.length = st.slabs.length + 1 ∧
        st2.slabs.tail = st.slabs) ∧
      (st.curr ≠ none → st2.nextPage = st.nextPage ∧
        st2.slabs.map Slab.base = st.slabs.map Slab.base) ∧
      (∀ q st3, State.free st q = some st3 → st3.nextPage = st.nextPage) := by
  have hInv := mainInv c hc ops st live hrun
  obtain ⟨st2, ret, h1, h2, h3, h4, h5⟩ := allocSpec st live hInv
  refine ⟨st2, ret, h1, ?_, fun h => ⟨(h4 h).2.1, (h4 h).2.2⟩, h5,
          fun q st3 hf => free_nextPage st q st3 hf⟩
  constructor
  · intro hnp
    by_contra hc0
    have := (h5 hc0).1
    omega
  · intro h
    exact (h4 h).1

/-- Claim C7, witness: on a fresh cache (null cursor) the first allocate
grows by exactly one page. -/
theorem c7_witness :
    cacheW.wf ∧ ∃ st live, run cacheW [] = some (st, live) ∧
      ∃ st2 ret, State.alloc st = some (st2, ret) ∧
        (st2.nextPage = st.nextPage + 1 ↔ st.curr = none) ∧
        (st.curr = none → st2.slabs.length = st.slabs.length + 1 ∧
          st2.slabs.tail = st.slabs) ∧
        (st.curr ≠ none → st2.nextPage = st.nextPage ∧
          st2.slabs.map Slab.base = st.slabs.map Slab.base) ∧
        (∀ q st3, State.free st q = some st3 → st3.nextPage = st.nextPage) :=
  ⟨by decide, _, _, rfl, c7_grow_iff cacheW (by decide) [] _ _ rfl⟩

/-- Claim C8: the `Slab_cache` constructor arithmetic — the stored object
size is element_size rounded up to the platform word size (the least
word-multiple not below it), the buffer stride is that size plus one
link-field word rounded up to the element alignment, and the per-slab
capacity is the truncating quotient of the page payload by the stride. -/
theorem c8_constructor (elem_size elem_align : Nat) (ha : 0 < elem_align) :
    (elem_size ≤ (mkCache elem_size elem_align).size ∧
      (mkCache elem_size elem_align).size % wordSize = 0 ∧
      ∀ y, elem_size ≤ y → y % wordSize = 0 →
        (mkCache elem_size elem_align).size ≤ y) ∧
    ((mkCache elem_size elem_align).size + wordSize ≤
        (mkCache elem_size elem_align).buff ∧
      (mkCache elem_size elem_align).buff % elem_align = 0 ∧
      ∀ y, (mkCache elem_size elem_align).size + wordSize ≤ y →
        y % elem_align = 0 → (mkCache elem_size elem_align).buff ≤ y) ∧
    ((mkCache elem_size elem_align).elem * (mkCache elem_size elem_align).buff
        ≤ PAGE_SIZE - slabHeaderSize ∧
      PAGE_SIZE - slabHeaderSize <
        ((mkCache elem_size elem_align).elem + 1) *
          (mkCache elem_size elem_align).buff) := by
  have hw : 0 < wordSize := by norm_num [wordSize]
  obtain ⟨s1, s2, s3⟩ := align_up_spec elem_size wordSize hw
  obtain ⟨b1, b2, b3⟩ :=
    align_up_spec (align_up elem_size wordSize + wordSize) elem_align ha
  have hbpos : 0 < align_up (align_up elem_size wordSize + wordSize) elem_align := by
    have hws : 0 < wordSize := hw
    omega
  have hsize : (mkCache elem_size elem_align).size = align_up elem_size wordSize :=
    rfl
  have hbuff : (mkCache elem_size elem_align).buff =
      align_up (align_up elem_size wordSize + wordSize) elem_align := rfl
  have helem : (mkCache elem_size elem_align).elem =
      (PAGE_SIZE - slabHeaderSize) /
        align_up (align_up elem_size wordSize + wordSize) elem_align := rfl
  refine ⟨⟨by rw [hsize]; exact s1, by rw [hsize]; exact s2,
           fun y hy hm => by rw [hsize]; exact s3 y hy hm⟩,
          ⟨by rw [hbuff, hsize]; exact b1, by rw [hbuff]; exact b2,
           fun y hy hm => by rw [hbuff]; exact b3 y (by rw [hsize] at hy; exact hy) hm⟩,
          ?_, ?_⟩
  · rw [helem, hbuff]
    exact Nat.div_mul_le_self _ _
  · rw [helem, hbuff]
    set D := PAGE_SIZE - slabHeaderSize with hD
    set bu := align_up (align_up elem_size wordSize + wordSize) elem_align with hbu
    have hmd : D % bu + D / bu * bu = D := Nat.mod_add_div' _ _
    have hml : D % bu < bu := Nat.mod_lt _ hbpos
    have hsm : (D / bu + 1) * bu = D / bu * bu + bu := by rw [Nat.succ_mul]
    omega

/-- Claim C8, witness: the constructor arithmetic at element size 24 and
alignment 8 (the spec's scenario). -/
theorem c8_witness :
    0 < 8 ∧
    ((24 ≤ (mkCache 24 8).size ∧ (mkCache 24 8).size % wordSize = 0 ∧
      ∀ y, 24 ≤ y → y % wordSize = 0 → (mkCache 24 8).size ≤ y) ∧
    ((mkCache 24 8).size + wordSize ≤ (mkCache 24 8).buff ∧
      (mkCache 24 8).buff % 8 = 0 ∧
      ∀ y, (mkCache 24 8).size + wordSize ≤ y → y % 8 = 0 →
        (mkCache 24 8).buff ≤ y) ∧
    ((mkCache 24 8).elem * (mkCache 24 8).buff ≤ PAGE_SIZE - slabHeaderSize ∧
      PAGE_SIZE - slabHeaderSize <
        ((mkCache 24 8).elem + 1) * (mkCache 24 8).buff)) :=
  ⟨by decide, c8_constructor 24 8 (by decide)⟩
